import Mathlib

/-!
# Verification of `download_gitlab_artifacts.py`

A shallow embedding of the artifact-fetching script: the paginated job-id
lookup, the archive expansion, the JSON/XML rendering, the PDF bundling, and
the per-config driver loop, together with proofs of the specification's
testable properties.

Conventions of the embedding:
* the HTTP job-listing endpoint is a function from page numbers to responses
  (a list of jobs plus the `X-Next-Page` cursor);
* the filesystem is a list of files, each a path (list of components) with a
  content; list order models directory-walk order;
* machine-level effects (printing, threads) are reduced to data: logs are
  values, the thread pool is modelled by the sequential list of per-job
  results (jobs own disjoint directories, so order does not matter for the
  claims below).
-/

/-- One job object from the listing endpoint: `{id, name, ...}`. -/
structure Job where
  name : String
  id : Nat
deriving DecidableEq

/-- One response of
`GET .../pipelines/{pipeline}/jobs?per_page=100&page=N`: the job list plus
the `X-Next-Page` header (`none` models an absent or empty header, which the
code treats as falsy). -/
structure PageResp where
  jobs : List Job
  next : Option Nat
deriving DecidableEq

/-- Outcome of the paginated lookup: the job id, the `ValueError` raised when
pages are exhausted, or divergence of the `while True` loop (fuel ran out). -/
inductive FetchOutcome where
  | found (id : Nat)
  | notFound
  | outOfFuel
deriving DecidableEq

/-- The `while True` loop of `PipelineArtifactFetcher.get_job_id`, with the
pages it requests recorded in order.  Each iteration GETs the current page,
scans it for the first job whose name matches, and otherwise follows the
`X-Next-Page` cursor; an absent cursor breaks the loop and raises. -/
def getJobIdGo (server : Nat → PageResp) (job_name : String) :
    Nat → Nat → FetchOutcome × List Nat
  | 0, _ => (.outOfFuel, [])
  | fuel + 1, page =>
    let resp := server page
    match resp.jobs.find? (fun j => j.name == job_name) with
    | some j => (.found j.id, [page])
    | none =>
      match resp.next with
      | none => (.notFound, [page])
      | some np =>
        let r := getJobIdGo server job_name fuel np
        (r.1, page :: r.2)

/-- A well-behaved GitLab server holding a finite paginated listing: page `p`
(1-based) serves the `p`-th block of jobs, and `X-Next-Page` is `p+1` while
more pages remain, absent on the last page (and on any page past the end). -/
def pagesOf (listing : List (List Job)) (p : Nat) : PageResp :=
  { jobs := (listing[p - 1]?).getD []
  , next := if p < listing.length then some (p + 1) else none }

/-- `get_job_id` against a finite listing: the loop starts at page 1; fuel
`listing.length + 1` is enough for a well-behaved server (shown below). -/
def get_job_id (listing : List (List Job)) (job_name : String) :
    FetchOutcome × List Nat :=
  getJobIdGo (pagesOf listing) job_name (listing.length + 1) 1


/-! ## JSON values

The structured data `json.load` yields: Python dicts preserve insertion
order, so objects are ordered association lists.  Numbers are modelled as
integers; strings as lists of Unicode scalar values. -/

mutual
inductive JValue where
  | jnull : JValue
  | jbool : Bool → JValue
  | jnum : Int → JValue
  | jstr : List Char → JValue
  | jarr : JArr → JValue
  | jobj : JObj → JValue
inductive JArr where
  | anil : JArr
  | acons : JValue → JArr → JArr
inductive JObj where
  | onil : JObj
  | ocons : List Char → JValue → JObj → JObj
end

/-- What `ET.parse` can raise when `xml_to_pdf` opens and parses a path:
an `ET.ParseError`, or any other exception (e.g. `IsADirectoryError`),
matching the function's two `except` arms. -/
inductive XmlExn where
  | parseErr
  | otherErr
deriving DecidableEq

/-- The essence of one extracted file's bytes: the outcome `json.load`
would produce on it, and the outcome of `ET.parse` (with the parsed tree
abstracted by its `ET.tostring` serialization). -/
structure EntryData where
  jsonP : Except Unit JValue
  xmlP : Except XmlExn (List Char)

/-- A paginated document as built by the renderers: a title banner followed
by one `Paragraph` per line of the serialized text. -/
structure PdfDoc where
  title : List Char
  paragraphs : List (List Char)

/-- Contents of a file on disk: a rendered document, a raw extracted source
file, or a zip archive (an ordered list of named entries, as written by
successive `zipf.write` calls). -/
inductive Content where
  | pdfC : PdfDoc → Content
  | srcC : EntryData → Content
  | zipC : List (String × Content) → Content

/-- One file: a path (components relative to the working directory, the
last one being the file name) and its content. -/
structure FSFile where
  path : List String
  content : Content

/-- The filesystem as the list of its files; list order models the
deterministic order in which `os.walk`/`os.listdir` enumerate entries. -/
abbrev FS := List FSFile

/-- Console output relevant to the claims. -/
inductive LogMsg where
  | warnNoPdfs
  | zippedAll
  | xmlParseLog
  | xmlFailLog
deriving DecidableEq

/-! ## Report packager (`zip_pdfs`) -/

/-- `p` lies strictly below directory `dir`. -/
def isUnder (dir p : List String) : Bool :=
  decide (dir.length < p.length) && dir.isPrefixOf p

/-- `os.path.basename` for a components path. -/
def baseName (p : List String) : String :=
  p.getLast?.getD ""

/-- ASCII lowercasing of one character (`str.lower`, restricted to the
ASCII range, which is all the `.pdf` suffix test can see). -/
def lowerChar (c : Char) : Char :=
  if 'A' ≤ c ∧ c ≤ 'Z' then Char.ofNat (c.toNat + 32) else c

/-- The `file.lower().endswith('.pdf')` test of `zip_pdfs`. -/
def isPdfName (s : String) : Bool :=
  List.isSuffixOf ['.', 'p', 'd', 'f'] (s.toList.map lowerChar)

/-- The `os.walk` collection loop of `zip_pdfs`: every file under
`output_dir` (any depth) whose lowercased name ends in `.pdf`, in walk
order. -/
def walkPdfs (output_dir : List String) (fs : FS) : FS :=
  fs.filter (fun f => isUnder output_dir f.path && isPdfName (baseName f.path))

/-- Reading entry `nm` out of a zip whose entries were written in list
order: a later entry with the same name overwrites an earlier one on
extraction (last write wins). -/
def zipExtract (entries : List (String × Content)) (nm : String) :
    Option Content :=
  entries.foldl (fun acc e => if e.1 == nm then some e.2 else acc) none

/-- `zip_pdfs(output_dir, "reports.zip", pdf_prefix)`: collect PDFs
recursively; warn and do nothing when there are none; otherwise write the
archive `<prefix>reports.zip` inside `output_dir`, each entry flattened to
`prefix + basename`. -/
def zip_pdfs (output_dir : List String) (pfx : String) (fs : FS) :
    FS × List LogMsg :=
  let pdf_files := walkPdfs output_dir fs
  if pdf_files.isEmpty then
    (fs, [.warnNoPdfs])
  else
    (fs ++ [⟨output_dir ++ [pfx ++ "reports.zip"],
        .zipC (pdf_files.map (fun f => (pfx ++ baseName f.path, f.content)))⟩],
      [.zippedAll])

/-! ## `json.dumps(v, indent=2)`

The serializer is embedded line-wise: `dumpLines ind v` is the list of
lines `json.dumps` produces for `v` when nested lines are indented by
`ind`; the first line carries no indentation (the caller supplies the
context before it), matching Python's layout.  `flatNl` joins lines with
newlines, so `flatNl (dumpLines 0 v)` is the full dumped text. -/

def indentC (n : Nat) : List Char := List.replicate n ' '

def digitChar (d : Nat) : Char := Char.ofNat (48 + d)

/-- Decimal digits of a natural number (`repr` of a Python int). -/
def natChars (n : Nat) : List Char :=
  if h : n < 10 then [digitChar n]
  else natChars (n / 10) ++ [digitChar (n % 10)]
termination_by n
decreasing_by exact Nat.div_lt_self (by omega) (by omega)

/-- Decimal representation of an integer. -/
def intChars (i : Int) : List Char :=
  if i < 0 then '-' :: natChars i.natAbs else natChars i.natAbs

/-- One lowercase hex digit. -/
def hexDigitChar (d : Nat) : Char :=
  if d < 10 then Char.ofNat (48 + d) else Char.ofNat (87 + d)

/-- Four lowercase hex digits, as in `\uXXXX`. -/
def hex4 (n : Nat) : List Char :=
  [hexDigitChar (n / 4096 % 16), hexDigitChar (n / 256 % 16),
    hexDigitChar (n / 16 % 16), hexDigitChar (n % 16)]

/-- Python `json.dumps` string escaping with the default
`ensure_ascii=True`: quote, backslash and the short control escapes; all
other characters outside `0x20..0x7e` become `\uXXXX`, with a surrogate
pair above `0xFFFF`. -/
def escChar (c : Char) : List Char :=
  if c = '"' then ['\\', '"']
  else if c = '\\' then ['\\', '\\']
  else if c = '\n' then ['\\', 'n']
  else if c = '\t' then ['\\', 't']
  else if c = '\r' then ['\\', 'r']
  else if c.toNat = 8 then ['\\', 'b']
  else if c.toNat = 12 then ['\\', 'f']
  else if c.toNat < 32 ∨ 127 ≤ c.toNat then
    if c.toNat < 65536 then '\\' :: 'u' :: hex4 c.toNat
    else '\\' :: 'u' :: hex4 (55296 + (c.toNat - 65536) / 1024)
      ++ '\\' :: 'u' :: hex4 (56320 + (c.toNat - 65536) % 1024)
  else [c]

def escStr (s : List Char) : List Char := (s.map escChar).flatten

def quoteStr (s : List Char) : List Char := '"' :: escStr s ++ ['"']

/-- Prepend `pre` to the first line. -/
def prefixHead (pre : List Char) : List (List Char) → List (List Char)
  | [] => [pre]
  | l :: ls => (pre ++ l) :: ls

/-- Append `suf` to the last line. -/
def suffixLast (suf : List Char) : List (List Char) → List (List Char)
  | [] => []
  | [l] => [l ++ suf]
  | l :: ls => l :: suffixLast suf ls

mutual
def dumpLines : Nat → JValue → List (List Char)
  | _, .jnull => [['n', 'u', 'l', 'l']]
  | _, .jbool true => [['t', 'r', 'u', 'e']]
  | _, .jbool false => [['f', 'a', 'l', 's', 'e']]
  | _, .jnum i => [intChars i]
  | _, .jstr s => [quoteStr s]
  | _, .jarr .anil => [['[', ']']]
  | ind, .jarr (.acons v a) =>
    ['['] :: dumpArr (ind + 2) v a ++ [indentC ind ++ [']']]
  | _, .jobj .onil => [['{', '}']]
  | ind, .jobj (.ocons k v o) =>
    ['{'] :: dumpObj (ind + 2) k v o ++ [indentC ind ++ ['}']]
termination_by ind v => sizeOf v
decreasing_by all_goals (simp_wf <;> omega)
def dumpArr : Nat → JValue → JArr → List (List Char)
  | ind, v, .anil => prefixHead (indentC ind) (dumpLines ind v)
  | ind, v, .acons w a =>
    suffixLast [','] (prefixHead (indentC ind) (dumpLines ind v))
      ++ dumpArr ind w a
termination_by ind v a => sizeOf v + sizeOf a
decreasing_by all_goals (simp_wf <;> omega)
def dumpObj : Nat → List Char → JValue → JObj → List (List Char)
  | ind, k, v, .onil =>
    prefixHead (indentC ind ++ quoteStr k ++ [':', ' ']) (dumpLines ind v)
  | ind, k, v, .ocons k2 v2 o =>
    suffixLast [','] (prefixHead (indentC ind ++ quoteStr k ++ [':', ' '])
      (dumpLines ind v)) ++ dumpObj ind k2 v2 o
termination_by ind k v o => sizeOf v + sizeOf o
decreasing_by all_goals (simp_wf <;> omega)
end

/-- Join lines with newlines (inverse of `str.split('\n')`). -/
def flatNl : List (List Char) → List Char
  | [] => []
  | [l] => l
  | l :: ls => l ++ '\n' :: flatNl ls

/-- The full dumped text `json.dumps(v, indent=2)`. -/
def dumps (v : JValue) : List Char := flatNl (dumpLines 0 v)

/-! ## The nbsp substitution of `json_to_pdf` -/

/-- The literal text `&nbsp;`. -/
def nbspC : List Char := ['&', 'n', 'b', 's', 'p', ';']

/-- `json_to_pdf`'s per-line transformation: each leading space becomes the
six-character text `&nbsp;`. -/
def nbspSubst (l : List Char) : List Char :=
  let n := (l.takeWhile (fun c => c = ' ')).length
  (List.replicate n nbspC).flatten ++ l.drop n

/-- Undo the cosmetic substitution: rewrite each leading `&nbsp;` back into
one space. -/
def nbspRestore : List Char → List Char
  | '&' :: 'n' :: 'b' :: 's' :: 'p' :: ';' :: t => ' ' :: nbspRestore t
  | l => l

/-- The paragraphs of the document `json_to_pdf` builds for value `v`
(title banner aside): one per line of the dump, leading spaces replaced. -/
def jsonParagraphs (v : JValue) : List (List Char) :=
  (dumpLines 0 v).map nbspSubst

/-- The textual content rendered by `json_to_pdf`, read back with the
cosmetic substitution undone. -/
def renderedTextOf (v : JValue) : List Char :=
  flatNl ((jsonParagraphs v).map nbspRestore)

/-! ## A JSON parser (recursive descent, fuel-indexed) -/

def isWsC (c : Char) : Bool := c = ' ' || c = '\n'

def skipWs (s : List Char) : List Char := s.dropWhile isWsC

def isDigitC (c : Char) : Bool :=
  decide (48 ≤ c.toNat) && decide (c.toNat ≤ 57)

def digitVal (c : Char) : Nat := c.toNat - 48

/-- Parse a nonempty run of decimal digits. -/
def pNatNum (s : List Char) : Option (Nat × List Char) :=
  let ds := s.takeWhile isDigitC
  if ds.isEmpty then none
  else some (ds.foldl (fun a c => a * 10 + digitVal c) 0, s.dropWhile isDigitC)

def hexVal (c : Char) : Option Nat :=
  if 48 ≤ c.toNat ∧ c.toNat ≤ 57 then some (c.toNat - 48)
  else if 97 ≤ c.toNat ∧ c.toNat ≤ 102 then some (c.toNat - 87)
  else if 65 ≤ c.toNat ∧ c.toNat ≤ 70 then some (c.toNat - 55)
  else none

def readHex4 : List Char → Option (Nat × List Char)
  | a :: b :: c :: d :: t =>
    match hexVal a, hexVal b, hexVal c, hexVal d with
    | some x, some y, some z, some w =>
      some (((x * 16 + y) * 16 + z) * 16 + w, t)
    | _, _, _, _ => none
  | _ => none

def consFst (c : Char) (r : Option (List Char × List Char)) :
    Option (List Char × List Char) :=
  r.map (fun p => (c :: p.1, p.2))

/-- Parse the body of a string literal after the opening quote, undoing the
escapes (including surrogate-pair `\uXXXX\uXXXX`). -/
def pStr : Nat → List Char → Option (List Char × List Char)
  | 0, _ => none
  | fuel + 1, s =>
    match s with
    | [] => none
    | c :: t =>
      if c = '"' then some ([], t)
      else if c = '\\' then
        match t with
        | [] => none
        | e :: t2 =>
          if e = '"' then consFst '"' (pStr fuel t2)
          else if e = '\\' then consFst '\\' (pStr fuel t2)
          else if e = '/' then consFst '/' (pStr fuel t2)
          else if e = 'n' then consFst '\n' (pStr fuel t2)
          else if e = 't' then consFst '\t' (pStr fuel t2)
          else if e = 'r' then consFst '\r' (pStr fuel t2)
          else if e = 'b' then consFst (Char.ofNat 8) (pStr fuel t2)
          else if e = 'f' then consFst (Char.ofNat 12) (pStr fuel t2)
          else if e = 'u' then
            match readHex4 t2 with
            | some (n, t3) =>
              if 55296 ≤ n ∧ n < 56320 then
                match t3 with
                | '\\' :: 'u' :: t4 =>
                  match readHex4 t4 with
                  | some (m, t5) =>
                    consFst (Char.ofNat (65536 + (n - 55296) * 1024
                      + (m - 56320))) (pStr fuel t5)
                  | none => none
                | _ => none
              else consFst (Char.ofNat n) (pStr fuel t3)
            | none => none
          else none
      else consFst c (pStr fuel t)

mutual
def pVal : Nat → List Char → Option (JValue × List Char)
  | 0, _ => none
  | fuel + 1, s =>
    match skipWs s with
    | [] => none
    | c :: t =>
      if c = '{' then
        match skipWs t with
        | '}' :: t2 => some (.jobj .onil, t2)
        | _ =>
          match pObj fuel t with
          | some (o, r) => some (.jobj o, r)
          | none => none
      else if c = '[' then
        match skipWs t with
        | ']' :: t2 => some (.jarr .anil, t2)
        | _ =>
          match pArr fuel t with
          | some (a, r) => some (.jarr a, r)
          | none => none
      else if c = '"' then
        match pStr fuel t with
        | some (str, r) => some (.jstr str, r)
        | none => none
      else if c = 't' then
        match t with
        | 'r' :: 'u' :: 'e' :: t2 => some (.jbool true, t2)
        | _ => none
      else if c = 'f' then
        match t with
        | 'a' :: 'l' :: 's' :: 'e' :: t2 => some (.jbool false, t2)
        | _ => none
      else if c = 'n' then
        match t with
        | 'u' :: 'l' :: 'l' :: t2 => some (.jnull, t2)
        | _ => none
      else if c = '-' then
        match pNatNum t with
        | some (n, r) => some (.jnum (-(n : Int)), r)
        | none => none
      else if isDigitC c then
        match pNatNum (c :: t) with
        | some (n, r) => some (.jnum (n : Int), r)
        | none => none
      else none
def pArr : Nat → List Char → Option (JArr × List Char)
  | 0, _ => none
  | fuel + 1, s =>
    match pVal fuel s with
    | some (v, r) =>
      match skipWs r with
      | ',' :: r2 =>
        match pArr fuel r2 with
        | some (a, r3) => some (.acons v a, r3)
        | none => none
      | ']' :: r2 => some (.acons v .anil, r2)
      | _ => none
    | none => none
def pObj : Nat → List Char → Option (JObj × List Char)
  | 0, _ => none
  | fuel + 1, s =>
    match skipWs s with
    | '"' :: t =>
      match pStr fuel t with
      | some (k, r) =>
        match skipWs r with
        | ':' :: r2 =>
          match pVal fuel r2 with
          | some (v, r3) =>
            match skipWs r3 with
            | ',' :: r4 =>
              match pObj fuel r4 with
              | some (o, r5) => some (.ocons k v o, r5)
              | none => none
            | '}' :: r4 => some (.ocons k v .onil, r4)
            | _ => none
          | none => none
        | _ => none
      | none => none
    | _ => none
end

/-! `jfuelV` is fuel sufficient to parse the dump of a value
(established below). -/

mutual
def jfuelV : JValue → Nat
  | .jnull => 1
  | .jbool _ => 1
  | .jnum _ => 1
  | .jstr s => s.length + 2
  | .jarr a => jfuelA a + 1
  | .jobj o => jfuelO o + 1
def jfuelA : JArr → Nat
  | .anil => 1
  | .acons v a => jfuelV v + jfuelA a + 1
def jfuelO : JObj → Nat
  | .onil => 1
  | .ocons k v o => k.length + jfuelV v + jfuelO o + 2
end

/-! `jDepth` is the nesting depth of a JSON value. -/

mutual
def jDepth : JValue → Nat
  | .jarr a => jDepthA a + 1
  | .jobj o => jDepthO o + 1
  | _ => 0
def jDepthA : JArr → Nat
  | .anil => 0
  | .acons v a => max (jDepth v) (jDepthA a)
def jDepthO : JObj → Nat
  | .onil => 0
  | .ocons _ v o => max (jDepth v) (jDepthO o)
end

/-! `jKeys` lists all object keys of a JSON value, in document order. -/

mutual
def jKeys : JValue → List (List Char)
  | .jarr a => jKeysA a
  | .jobj o => jKeysO o
  | _ => []
def jKeysA : JArr → List (List Char)
  | .anil => []
  | .acons v a => jKeys v ++ jKeysA a
def jKeysO : JObj → List (List Char)
  | .onil => []
  | .ocons k v o => k :: (jKeys v ++ jKeysO o)
end

/-- After a value inside a dump, the remaining input is empty or starts
with a comma or a newline: that is all the layout ever places there. -/
def delim : List Char → Prop
  | [] => True
  | c :: _ => c = ',' ∨ c = '\n'

/-- A line whose first non-space character is not an ampersand: on such a
line the `&nbsp;` substitution of leading spaces is invertible. -/
def goodLine (l : List Char) : Prop :=
  (l.dropWhile (fun c => c = ' ')).head? ≠ some '&'

/-! ## Report renderers -/

/-- `str.endswith(suffix)`. -/
def strEndsWith (s suf : String) : Bool :=
  List.isSuffixOf suf.toList s.toList

/-- `html.escape` of one character (default `quote=True`). -/
def escapeHtmlChar (c : Char) : List Char :=
  if c = '&' then ['&', 'a', 'm', 'p', ';']
  else if c = '<' then ['&', 'l', 't', ';']
  else if c = '>' then ['&', 'g', 't', ';']
  else if c = '"' then ['&', 'q', 'u', 'o', 't', ';']
  else if c = '\'' then ['&', '#', 'x', '2', '7', ';']
  else [c]

/-- `html.escape` over a text. -/
def htmlEscapeC (s : List Char) : List Char :=
  (s.map escapeHtmlChar).flatten

/-- `str.split('\n')`. -/
def splitNlC : List Char → List (List Char)
  | [] => [[]]
  | c :: t =>
    let r := splitNlC t
    if c = '\n' then [] :: r
    else
      match r with
      | [] => [[c]]
      | l :: ls => (c :: l) :: ls

/-- `os.path.splitext(name)[0]` for a bare file name: the extension starts
at the last dot, unless every character before that dot is itself a dot
(Python treats such names as extensionless). -/
def stripExt (s : String) : String :=
  match s.toList.reverse.dropWhile (fun c => c ≠ '.') with
  | [] => s
  | _ :: pre => if pre.any (fun c => c ≠ '.') then String.mk pre.reverse else s

/-- `json_to_pdf`: `json.load`, then `json.dumps(indent=2)`, one paragraph
per line with the nbsp substitution, title = basename.  Parse errors (and
`open` failing on a directory) propagate to the caller — the function has
no handler. -/
def json_to_pdf (name : String) (src : Except Unit JValue) :
    Except Unit PdfDoc :=
  match src with
  | .error e => .error e
  | .ok v => .ok ⟨name.toList, jsonParagraphs v⟩

/-- The unguarded body of `xml_to_pdf`: `ET.parse`, `ET.tostring`, one
HTML-escaped paragraph per line, escaped title. -/
def xml_to_pdf_body (name : String) (src : Except XmlExn (List Char)) :
    Except XmlExn PdfDoc :=
  match src with
  | .error e => .error e
  | .ok ser => .ok ⟨htmlEscapeC name.toList, (splitNlC ser).map htmlEscapeC⟩

/-- `xml_to_pdf` wraps its whole body in `try`: an `ET.ParseError` and any
other exception are both caught and logged, and the function returns
normally with no document produced. -/
def xml_to_pdf (name : String) (src : Except XmlExn (List Char)) :
    Option PdfDoc × List LogMsg :=
  match xml_to_pdf_body name src with
  | .ok d => (some d, [])
  | .error .parseErr => (none, [.xmlParseLog])
  | .error .otherErr => (none, [.xmlFailLog])

/-! ## Job orchestrator and driver -/

/-- One entry of a downloaded artifact archive: its path inside the
archive and the parse outcomes of its bytes. -/
structure ArtifactEntry where
  path : List String
  data : EntryData

/-- The external GitLab server: per (project, pipeline) the paginated job
listing, and per (project, job id) the artifact archive — `none` models a
non-success HTTP status on the artifact download. -/
structure ServerEnv where
  listing : Nat → Nat → List (List Job)
  artifact : Nat → Nat → Option (List ArtifactEntry)

/-- One configuration object of the config file; `pfx` is the
`pdf_prefix` field. -/
structure PipelineConfig where
  project_id : Nat
  pipeline_id : Nat
  pfx : String
  job_names : List String

/-- `download_artifact`: fetch the artifact archive of a job. -/
def download_artifact (env : ServerEnv) (project_id job_id : Nat) :
    Option (List ArtifactEntry) :=
  env.artifact project_id job_id

/-- `unzip_to_dir`: extract all entries below `extract_dir`. -/
def unzip_to_dir (extract_dir : List String)
    (entries : List ArtifactEntry) : List FSFile :=
  entries.map (fun e => ⟨extract_dir ++ e.path, .srcC e.data⟩)

/-- `os.listdir(extract_dir)`: the top-level names, both files and
directories, each once, in first-occurrence order. -/
def topNames (entries : List ArtifactEntry) : List String :=
  (entries.filterMap (fun e => e.path.head?)).eraseDups

/-- The content `open`/`ET.parse` would find at top-level name `nm`:
`none` when `nm` is a directory (no file entry sits exactly at `[nm]`). -/
def fileData (entries : List ArtifactEntry) (nm : String) :
    Option EntryData :=
  (entries.find? (fun e => e.path == [nm])).map (fun e => e.data)

/-- The per-job rendering loop of `process_job`: iterate over the
top-level listing; a `.json` name goes through `json_to_pdf`, whose
exception aborts the loop (the job fails, keeping the documents already
written); a `.xml` name goes through `xml_to_pdf`, which swallows its own
errors, so the loop continues. -/
def renderLoop (extract_dir : List String) (entries : List ArtifactEntry) :
    List String → Bool × List FSFile
  | [] => (true, [])
  | nm :: rest =>
    if strEndsWith nm ".json" then
      match json_to_pdf nm (match fileData entries nm with
        | none => .error ()
        | some d => d.jsonP) with
      | .ok doc =>
        let r := renderLoop extract_dir entries rest
        (r.1, ⟨extract_dir ++ [stripExt nm ++ ".pdf"], .pdfC doc⟩ :: r.2)
      | .error _ => (false, [])
    else if strEndsWith nm ".xml" then
      match xml_to_pdf nm (match fileData entries nm with
        | none => .error .otherErr
        | some d => d.xmlP) with
      | (some doc, _) =>
        let r := renderLoop extract_dir entries rest
        (r.1, ⟨extract_dir ++ [stripExt nm ++ ".pdf"], .pdfC doc⟩ :: r.2)
      | (none, _) => renderLoop extract_dir entries rest
    else renderLoop extract_dir entries rest

/-- Outcome of one `process_job` call: the returned boolean, the job ids
for which `download_artifact` was invoked, and the files written under the
output directory. -/
structure JobResult where
  ok : Bool
  downloads : List Nat
  writes : List FSFile

/-- `process_job`: resolve → download → unzip → render; every exception is
caught by the enclosing `try` and turned into `False`. -/
def process_job (env : ServerEnv) (project_id pipeline_id : Nat)
    (output_dir : List String) (job_name : String) : JobResult :=
  match (get_job_id (env.listing project_id pipeline_id) job_name).1 with
  | .notFound => ⟨false, [], []⟩
  | .outOfFuel => ⟨false, [], []⟩
  | .found jid =>
    match download_artifact env project_id jid with
    | none => ⟨false, [jid], []⟩
    | some entries =>
      let extract_dir := output_dir ++ ["job_" ++ toString jid]
      let extracted := unzip_to_dir extract_dir entries
      let r := renderLoop extract_dir entries (topNames entries)
      ⟨r.1, [jid], extracted ++ r.2⟩

/-- `clean_output_dir`: `shutil.rmtree` of the config's output directory. -/
def clean_output_dir (output_dir : List String) (fs : FS) : FS :=
  fs.filter (fun f => !(isUnder output_dir f.path))

/-- `output/project_<P>_pipeline_<PL>`. -/
def configOutputDir (base : List String) (cfg : PipelineConfig) :
    List String :=
  base ++ ["project_" ++ toString cfg.project_id ++ "_pipeline_"
    ++ toString cfg.pipeline_id]

/-- The files under a directory. -/
def underDir (d : List String) (fs : FS) : FS :=
  fs.filter (fun f => isUnder d f.path)

/-- One iteration of `main`'s config loop: wipe the output directory, run
every job (the bounded pool joins on all of them; jobs own disjoint
directories, so the sequential composition of their writes models any
completion order), then bundle. -/
def runConfig (env : ServerEnv) (base : List String) (fs : FS)
    (cfg : PipelineConfig) : FS × List JobResult :=
  let output_dir := configOutputDir base cfg
  let fs1 := clean_output_dir output_dir fs
  let results := cfg.job_names.map
    (process_job env cfg.project_id cfg.pipeline_id output_dir)
  let fs2 := fs1 ++ (results.map (fun r => r.writes)).flatten
  ((zip_pdfs output_dir cfg.pfx fs2).1, results)

/-- `main` after the config file parses: the config loop, then exit
status 0 — per-job failures never propagate. -/
def main_model (env : ServerEnv) (base : List String)
    (cfgs : List PipelineConfig) (fs : FS) : FS × Nat :=
  (cfgs.foldl (fun acc cfg => (runConfig env base acc cfg).1) fs, 0)

/-- Content found at a path (the latest write to it), when it is a zip:
its entry list. -/
def zipEntriesAt (fs : FS) (p : List String) :
    Option (List (String × Content)) :=
  match (fs.reverse.find? (fun f => f.path == p)).map (fun f => f.content) with
  | some (Content.zipC es) => some es
  | _ => none

/-- A concrete server for the examples below: a single job whose artifact
holds one well-formed JSON file. -/
def envSolo : ServerEnv :=
  ⟨fun _ _ => [[⟨"good", 1⟩]],
    fun _ _ => some [⟨["a.json"], ⟨.ok .jnull, .error .parseErr⟩⟩]⟩

def cfgSolo : PipelineConfig := ⟨1, 2, "", ["good"]⟩

/-- A concrete server with a succeeding job (empty artifact) and a failing
job whose artifact renders one JSON file before hitting a malformed one. -/
def envGoodBad : ServerEnv :=
  ⟨fun _ _ => [[⟨"good", 1⟩, ⟨"bad", 2⟩]],
    fun _ jid =>
      if jid = 1 then some []
      else some [⟨["c.json"], ⟨.ok .jnull, .error .parseErr⟩⟩,
        ⟨["d.json"], ⟨.error (), .error .parseErr⟩⟩]⟩

def cfgGoodBad : PipelineConfig := ⟨1, 2, "", ["good", "bad"]⟩

/-- One unfolding of the loop. -/
theorem getJobIdGo_step (server : Nat → PageResp) (nm : String)
    (fuel page : Nat) :
    getJobIdGo server nm (fuel + 1) page =
      match (server page).jobs.find? (fun j => j.name == nm) with
      | some j => (.found j.id, [page])
      | none =>
        match (server page).next with
        | none => (.notFound, [page])
        | some np =>
          ((getJobIdGo server nm fuel np).1,
            page :: (getJobIdGo server nm fuel np).2) := rfl

/-- A page of a listing in which no job matches never yields a find hit. -/
theorem pagesOf_find_none (L : List (List Job)) (nm : String)
    (hall : ∀ pg ∈ L, ∀ j ∈ pg, j.name ≠ nm) (page : Nat) :
    (pagesOf L page).jobs.find? (fun j => j.name == nm) = none := by
  apply List.find?_eq_none.2
  intro j hj
  simp only [beq_eq_false_iff_ne, ne_eq, beq_iff_eq]
  simp only [pagesOf] at hj
  cases hget : L[page - 1]? with
  | none => rw [hget] at hj; simp at hj
  | some pg =>
    rw [hget] at hj
    simp only [Option.getD_some] at hj
    obtain ⟨hlt, hpg⟩ := List.getElem?_eq_some_iff.1 hget
    exact hall pg (hpg ▸ List.getElem_mem hlt) j hj

/-- On a finite listing that nowhere matches, the loop starting at any page
with enough fuel exhausts the remaining pages and reports `notFound`. -/
theorem getJobIdGo_notFound (L : List (List Job)) (job_name : String)
    (hall : ∀ pg ∈ L, ∀ j ∈ pg, j.name ≠ job_name) :
    ∀ fuel page, 1 ≤ page → L.length ≤ page + fuel →
      (getJobIdGo (pagesOf L) job_name (fuel + 1) page).1 = .notFound := by
  intro fuel
  induction fuel with
  | zero =>
    intro page hpage hlen
    have hnext : (pagesOf L page).next = none := by
      have : ¬ page < L.length := by omega
      simp [pagesOf, this]
    rw [getJobIdGo_step, pagesOf_find_none L job_name hall page, hnext]
  | succ fuel ih =>
    intro page hpage hlen
    rw [getJobIdGo_step, pagesOf_find_none L job_name hall page]
    by_cases hlt : page < L.length
    · have hnext : (pagesOf L page).next = some (page + 1) := by
        simp [pagesOf, hlt]
      rw [hnext]
      exact ih (page + 1) (by omega) (by omega)
    · have hnext : (pagesOf L page).next = none := by
        simp [pagesOf, hlt]
      rw [hnext]

/-- C1 (loop part): a job name present on no page makes `get_job_id` raise
`NotFound` (the `ValueError`) after exhausting all pages. -/
theorem get_job_id_absent_notFound (L : List (List Job)) (job_name : String)
    (hall : ∀ pg ∈ L, ∀ j ∈ pg, j.name ≠ job_name) :
    (get_job_id L job_name).1 = .notFound := by
  unfold get_job_id
  exact getJobIdGo_notFound L job_name hall L.length 1 le_rfl (by omega)

/-- When the only match sits on the last page `N`, the loop walks pages
`page, page+1, …, N` in order and returns the match. -/
theorem getJobIdGo_lastpage (L : List (List Job)) (nm : String) (N : Nat)
    (jb : Job) (hlen : L.length = N)
    (hprev : ∀ i, i < N - 1 → ∀ j ∈ (L[i]?).getD [], j.name ≠ nm)
    (hlast : ((L[N - 1]?).getD []).find? (fun j => j.name == nm) = some jb) :
    ∀ fuel page, 1 ≤ page → page ≤ N → N ≤ page + fuel →
      getJobIdGo (pagesOf L) nm (fuel + 1) page
        = (.found jb.id, List.range' page (N - page + 1)) := by
  intro fuel
  induction fuel with
  | zero =>
    intro page hpage hle hge
    have hpN : page = N := by omega
    subst hpN
    have hfind : (pagesOf L page).jobs.find? (fun j => j.name == nm)
        = some jb := by
      simpa only [pagesOf] using hlast
    rw [getJobIdGo_step, hfind]
    have h1 : page - page + 1 = 1 := by omega
    rw [h1, List.range'_one]
  | succ fuel ih =>
    intro page hpage hle hge
    by_cases hpN : page = N
    · subst hpN
      have hfind : (pagesOf L page).jobs.find? (fun j => j.name == nm)
          = some jb := by
        simpa only [pagesOf] using hlast
      rw [getJobIdGo_step, hfind]
      have h1 : page - page + 1 = 1 := by omega
      rw [h1, List.range'_one]
    · have hlt : page < N := by omega
      have hfind : (pagesOf L page).jobs.find? (fun j => j.name == nm)
          = none := by
        apply List.find?_eq_none.2
        intro j hj
        simp only [beq_eq_false_iff_ne, ne_eq, beq_iff_eq]
        exact hprev (page - 1) (by omega) j hj
      have hnext : (pagesOf L page).next = some (page + 1) := by
        have : page < L.length := by omega
        simp [pagesOf, this]
      rw [getJobIdGo_step, hfind, hnext]
      show ((getJobIdGo (pagesOf L) nm (fuel + 1) (page + 1)).1,
          page :: (getJobIdGo (pagesOf L) nm (fuel + 1) (page + 1)).2)
        = (FetchOutcome.found jb.id, List.range' page (N - page + 1))
      rw [ih (page + 1) (by omega) (by omega) (by omega)]
      have hr : List.range' page (N - page + 1)
          = page :: List.range' (page + 1) (N - (page + 1) + 1) := by
        have h1 : N - page + 1 = (N - (page + 1) + 1) + 1 := by omega
        rw [h1, List.range'_succ]
      rw [hr]

/-- C2: when the matching job name first appears on the last page `N` of a
multi-page listing, `get_job_id` requests every page `1, …, N` in order and
returns the matching job's id. -/
theorem get_job_id_multipage (L : List (List Job)) (nm : String) (N : Nat)
    (jb : Job) (hN : 1 ≤ N) (hlen : L.length = N)
    (hprev : ∀ i, i < N - 1 → ∀ j ∈ (L[i]?).getD [], j.name ≠ nm)
    (hlast : ((L[N - 1]?).getD []).find? (fun j => j.name == nm) = some jb) :
    get_job_id L nm = (.found jb.id, List.range' 1 N) := by
  unfold get_job_id
  have h := getJobIdGo_lastpage L nm N jb hlen hprev hlast L.length 1
    le_rfl (by omega) (by omega)
  rw [h]
  have h1 : N - 1 + 1 = N := by omega
  rw [h1]

/-- With strictly increasing continuation cursors that are eventually absent
(none from page `B` on), the loop never runs out of fuel `B + 1`. -/
theorem getJobIdGo_fueled (S : Nat → PageResp) (nm : String) (B : Nat)
    (hinc : ∀ p q, (S p).next = some q → p < q)
    (hfin : ∀ p, B ≤ p → (S p).next = none) :
    ∀ fuel page, B ≤ page + fuel →
      (getJobIdGo S nm (fuel + 1) page).1 ≠ .outOfFuel := by
  intro fuel
  induction fuel with
  | zero =>
    intro page hB
    rw [getJobIdGo_step]
    cases hf : (S page).jobs.find? (fun j => j.name == nm) with
    | some j => simp
    | none => rw [hfin page (by omega)]; simp
  | succ fuel ih =>
    intro page hB
    rw [getJobIdGo_step]
    cases hf : (S page).jobs.find? (fun j => j.name == nm) with
    | some j => simp
    | none =>
      cases hn : (S page).next with
      | none => simp
      | some np =>
        have hlt : page < np := hinc page np hn
        simpa using ih np (by omega)

/-- C9: under the precondition that cursors strictly increase and are
eventually absent, `get_job_id` terminates after finitely many page
requests: with fuel `B + 1` it either returns a job id or raises NotFound. -/
theorem get_job_id_terminates (S : Nat → PageResp) (nm : String) (B : Nat)
    (hinc : ∀ p q, (S p).next = some q → p < q)
    (hfin : ∀ p, B ≤ p → (S p).next = none) :
    (∃ i, (getJobIdGo S nm (B + 1) 1).1 = .found i)
      ∨ (getJobIdGo S nm (B + 1) 1).1 = .notFound := by
  have h := getJobIdGo_fueled S nm B hinc hfin B 1 (by omega)
  cases hr : (getJobIdGo S nm (B + 1) 1).1 with
  | found i => exact Or.inl ⟨i, rfl⟩
  | notFound => exact Or.inr rfl
  | outOfFuel => exact absurd hr h

/-- Witness for C2 on a concrete two-page listing whose match is on page 2. -/
theorem get_job_id_multipage_witness :
    get_job_id [[⟨"build", 5⟩], [⟨"deploy", 7⟩]] "deploy"
      = (.found 7, List.range' 1 2) :=
  get_job_id_multipage [[⟨"build", 5⟩], [⟨"deploy", 7⟩]] "deploy" 2
    ⟨"deploy", 7⟩ (by decide) rfl (by decide) (by decide)

/-- Witness for C9 on a concrete one-page server with no cursor. -/
theorem get_job_id_terminates_witness :
    (∃ i, (getJobIdGo (fun _ => ⟨[], none⟩) "deploy" 1 1).1 = .found i)
      ∨ (getJobIdGo (fun _ => ⟨[], none⟩) "deploy" 1 1).1 = .notFound :=
  get_job_id_terminates (fun _ => ⟨[], none⟩) "deploy" 0
    (fun _ _ h => Option.noConfusion h) (fun _ _ => rfl)
/-- C5: an output directory with zero rendered documents under it makes
`zip_pdfs` report a warning and return without creating any archive: the
filesystem is unchanged. -/
theorem zip_pdfs_no_docs (output_dir : List String) (pfx : String) (fs : FS)
    (h : ∀ f ∈ fs, isUnder output_dir f.path = true →
      isPdfName (baseName f.path) = false) :
    zip_pdfs output_dir pfx fs = (fs, [.warnNoPdfs]) := by
  have hempty : walkPdfs output_dir fs = [] := by
    apply List.filter_eq_nil_iff.2
    intro f hf
    simp only [Bool.and_eq_true, not_and, Bool.not_eq_true]
    intro hu
    exact h f hf hu
  simp [zip_pdfs, hempty]

/-- Witness for C5: a directory holding one non-PDF file. -/
theorem zip_pdfs_no_docs_witness :
    zip_pdfs ["artifacts", "p"] "rep_"
      [⟨["artifacts", "p", "job_3", "r.xml"],
        .srcC ⟨.error (), .error .parseErr⟩⟩]
      = ([⟨["artifacts", "p", "job_3", "r.xml"],
          .srcC ⟨.error (), .error .parseErr⟩⟩], [.warnNoPdfs]) :=
  zip_pdfs_no_docs _ _ _ (by decide)

/-- `zipExtract` over entries written in walk order picks the content of
the last file whose flattened name matches: last write wins. -/
theorem zipExtract_lastwins (l : List FSFile) (g : FSFile → String)
    (nm : String) :
    zipExtract (l.map (fun f => (g f, f.content))) nm
      = ((l.filter (fun f => g f == nm)).getLast?).map (fun f => f.content) := by
  induction l using List.reverseRecOn with
  | nil => rfl
  | append_singleton l x ih =>
    by_cases hx : g x = nm
    · have hx' : (g x == nm) = true := by simpa using hx
      simp [zipExtract, List.foldl_append, List.filter_append, hx', hx]
    · have hx' : (g x == nm) = false := by simpa using hx
      simp only [List.map_append, List.map_cons, List.map_nil, zipExtract,
        List.foldl_append, List.foldl_cons, List.foldl_nil,
        List.filter_append, List.filter_cons, List.filter_nil, hx',
        Bool.false_eq_true, if_false, List.append_nil]
      exact ih

/-- C6: with at least one rendered document under `output_dir`, `zip_pdfs`
appends a compressed archive at `output_dir/<prefix>reports.zip` whose
entries are the walked documents flattened to the archive root
(`prefix + basename`, subdirectories discarded), and extraction of a
colliding flattened name yields the last written file's content. -/
theorem zip_pdfs_bundle (output_dir : List String) (pfx : String) (fs : FS)
    (h : walkPdfs output_dir fs ≠ []) :
    zip_pdfs output_dir pfx fs
      = (fs ++ [⟨output_dir ++ [pfx ++ "reports.zip"],
          .zipC ((walkPdfs output_dir fs).map
            (fun f => (pfx ++ baseName f.path, f.content)))⟩],
        [.zippedAll])
    ∧ ∀ nm, zipExtract ((walkPdfs output_dir fs).map
          (fun f => (pfx ++ baseName f.path, f.content))) nm
        = (((walkPdfs output_dir fs).filter
            (fun f => pfx ++ baseName f.path == nm)).getLast?).map
          (fun f => f.content) := by
  constructor
  · have hne : (walkPdfs output_dir fs).isEmpty = false := by
      cases hw : walkPdfs output_dir fs with
      | nil => exact absurd hw h
      | cons a l => rfl
    simp [zip_pdfs, hne]
  · intro nm
    exact zipExtract_lastwins (walkPdfs output_dir fs)
      (fun f => pfx ++ baseName f.path) nm

/-! ## Character and digit lemmas -/

/-- `Char.ofNat` inverts `toNat` on valid codepoints. -/
theorem toNat_ofNat_valid (n : Nat) (h : n.isValidChar) :
    (Char.ofNat n).toNat = n := by
  simp only [Char.ofNat, dif_pos h, Char.ofNatAux, Char.toNat]
  rfl

/-- Codepoints below the surrogate range are valid. -/
theorem toNat_ofNat_small (n : Nat) (h : n < 55296) :
    (Char.ofNat n).toNat = n :=
  toNat_ofNat_valid n (Or.inl h)

theorem digitVal_digitChar (d : Nat) (h : d < 10) :
    digitVal (digitChar d) = d := by
  simp [digitVal, digitChar, toNat_ofNat_small (48 + d) (by omega)]

theorem isDigitC_digitChar (d : Nat) (h : d < 10) :
    isDigitC (digitChar d) = true := by
  simp only [isDigitC, digitChar, toNat_ofNat_small (48 + d) (by omega),
    Bool.and_eq_true, decide_eq_true_eq]
  omega

theorem natChars_digits (n : Nat) : ∀ c ∈ natChars n, isDigitC c = true := by
  induction n using Nat.strong_induction_on with
  | _ n ih =>
    intro c hc
    rw [natChars] at hc
    by_cases h : n < 10
    · rw [dif_pos h] at hc
      simp at hc
      exact hc ▸ isDigitC_digitChar n h
    · rw [dif_neg h] at hc
      rcases List.mem_append.1 hc with h1 | h1
      · exact ih (n / 10) (Nat.div_lt_self (by omega) (by omega)) c h1
      · simp at h1
        exact h1 ▸ isDigitC_digitChar (n % 10) (by omega)

theorem natChars_ne_nil (n : Nat) : natChars n ≠ [] := by
  rw [natChars]
  by_cases h : n < 10
  · rw [dif_pos h]; simp
  · rw [dif_neg h]; simp

theorem natChars_foldl (n : Nat) :
    (natChars n).foldl (fun a c => a * 10 + digitVal c) 0 = n := by
  induction n using Nat.strong_induction_on with
  | _ n ih =>
    rw [natChars]
    by_cases h : n < 10
    · rw [dif_pos h]
      simp [digitVal_digitChar n h]
    · rw [dif_neg h]
      rw [List.foldl_append]
      rw [ih (n / 10) (Nat.div_lt_self (by omega) (by omega))]
      simp only [List.foldl_cons, List.foldl_nil]
      rw [digitVal_digitChar (n % 10) (by omega)]
      omega

theorem takeWhile_append_all {p : Char → Bool} (xs ys : List Char)
    (h : ∀ x ∈ xs, p x = true) :
    (xs ++ ys).takeWhile p = xs ++ ys.takeWhile p := by
  induction xs with
  | nil => simp
  | cons x xs ih =>
    have hx := h x (by simp)
    simp [List.takeWhile_cons, hx, ih (fun a ha => h a (by simp [ha]))]

theorem dropWhile_append_all {p : Char → Bool} (xs ys : List Char)
    (h : ∀ x ∈ xs, p x = true) :
    (xs ++ ys).dropWhile p = ys.dropWhile p := by
  induction xs with
  | nil => simp
  | cons x xs ih =>
    simp only [List.cons_append, List.dropWhile_cons, h x (by simp)]
    exact ih (fun a ha => h a (by simp [ha]))

theorem dropWhile_of_takeWhile_nil {p : Char → Bool} (l : List Char)
    (h : l.takeWhile p = []) : l.dropWhile p = l := by
  cases l with
  | nil => rfl
  | cons c t =>
    simp only [List.takeWhile_cons] at h
    by_cases hc : p c = true
    · simp [hc] at h
    · simp only [Bool.not_eq_true] at hc
      simp [List.dropWhile_cons, hc]

theorem delim_no_digit (rest : List Char) (h : delim rest) :
    rest.takeWhile isDigitC = [] := by
  cases rest with
  | nil => rfl
  | cons c t =>
    rcases h with h | h <;>
      simp [List.takeWhile_cons, h, isDigitC]

/-- Parsing the decimal digits of `n` followed by a delimiter recovers
`n`. -/
theorem pNatNum_natChars (n : Nat) (rest : List Char)
    (h : rest.takeWhile isDigitC = []) :
    pNatNum (natChars n ++ rest) = some (n, rest) := by
  have hall := natChars_digits n
  have h1 : (natChars n ++ rest).takeWhile isDigitC = natChars n := by
    rw [takeWhile_append_all _ _ hall, h, List.append_nil]
  have h2 : (natChars n ++ rest).dropWhile isDigitC = rest := by
    rw [dropWhile_append_all _ _ hall, dropWhile_of_takeWhile_nil _ h]
  have hne : (natChars n).isEmpty = false := by
    cases hn : natChars n with
    | nil => exact absurd hn (natChars_ne_nil n)
    | cons a l => rfl
  simp only [pNatNum, h1, h2, hne, Bool.false_eq_true, if_false]
  rw [natChars_foldl n]

/-! ## Hex and string-escape roundtrip -/

theorem hexVal_hexDigitChar (d : Nat) (h : d < 16) :
    hexVal (hexDigitChar d) = some d := by
  by_cases h10 : d < 10
  · have ht : (hexDigitChar d).toNat = 48 + d := by
      simp [hexDigitChar, h10, toNat_ofNat_small (48 + d) (by omega)]
    simp only [hexVal, ht]
    rw [if_pos (by omega)]
    have he : 48 + d - 48 = d := by omega
    rw [he]
  · have ht : (hexDigitChar d).toNat = 87 + d := by
      simp [hexDigitChar, h10, toNat_ofNat_small (87 + d) (by omega)]
    simp only [hexVal, ht]
    rw [if_neg (by omega), if_pos (by omega)]
    have he : 87 + d - 87 = d := by omega
    rw [he]

theorem readHex4_hex4 (n : Nat) (h : n < 65536) (t : List Char) :
    readHex4 (hex4 n ++ t) = some (n, t) := by
  have h1 := hexVal_hexDigitChar (n / 4096 % 16) (Nat.mod_lt _ (by omega))
  have h2 := hexVal_hexDigitChar (n / 256 % 16) (Nat.mod_lt _ (by omega))
  have h3 := hexVal_hexDigitChar (n / 16 % 16) (Nat.mod_lt _ (by omega))
  have h4 := hexVal_hexDigitChar (n % 16) (Nat.mod_lt _ (by omega))
  simp only [hex4, List.cons_append, List.nil_append, readHex4, h1, h2, h3, h4]
  have he : ((n / 4096 % 16 * 16 + n / 256 % 16) * 16 + n / 16 % 16) * 16
      + n % 16 = n := by omega
  rw [he]

theorem char_valid_nat (c : Char) :
    c.toNat < 55296 ∨ (57343 < c.toNat ∧ c.toNat < 1114112) :=
  c.valid

theorem pStr_cons_plain (fuel : Nat) (c : Char) (t : List Char)
    (h1 : c ≠ '"') (h2 : c ≠ '\\') :
    pStr (fuel + 1) (c :: t) = consFst c (pStr fuel t) := by
  simp [pStr, h1, h2]

theorem pStr_quote (fuel : Nat) (t : List Char) :
    pStr (fuel + 1) ('"' :: t) = some ([], t) := by
  simp [pStr]

theorem pStr_esc_quote (fuel : Nat) (t : List Char) :
    pStr (fuel + 1) ('\\' :: '"' :: t) = consFst '"' (pStr fuel t) := by
  simp [pStr]

theorem pStr_esc_bslash (fuel : Nat) (t : List Char) :
    pStr (fuel + 1) ('\\' :: '\\' :: t) = consFst '\\' (pStr fuel t) := by
  simp [pStr]

theorem pStr_esc_n (fuel : Nat) (t : List Char) :
    pStr (fuel + 1) ('\\' :: 'n' :: t) = consFst '\n' (pStr fuel t) := by
  simp [pStr]

theorem pStr_esc_t (fuel : Nat) (t : List Char) :
    pStr (fuel + 1) ('\\' :: 't' :: t) = consFst '\t' (pStr fuel t) := by
  simp [pStr]

theorem pStr_esc_r (fuel : Nat) (t : List Char) :
    pStr (fuel + 1) ('\\' :: 'r' :: t) = consFst '\r' (pStr fuel t) := by
  simp [pStr]

theorem pStr_esc_b (fuel : Nat) (t : List Char) :
    pStr (fuel + 1) ('\\' :: 'b' :: t) = consFst (Char.ofNat 8) (pStr fuel t) := by
  simp [pStr]

theorem pStr_esc_f (fuel : Nat) (t : List Char) :
    pStr (fuel + 1) ('\\' :: 'f' :: t) = consFst (Char.ofNat 12) (pStr fuel t) := by
  simp [pStr]

theorem pStr_esc_u (fuel : Nat) (t t3 : List Char) (n : Nat)
    (h : readHex4 t = some (n, t3)) (hn : ¬(55296 ≤ n ∧ n < 56320)) :
    pStr (fuel + 1) ('\\' :: 'u' :: t) = consFst (Char.ofNat n) (pStr fuel t3) := by
  simp [pStr, h, hn]

theorem pStr_esc_u2 (fuel : Nat) (t t4 t5 : List Char) (n m : Nat)
    (h : readHex4 t = some (n, '\\' :: 'u' :: t4))
    (hs : 55296 ≤ n ∧ n < 56320) (h2 : readHex4 t4 = some (m, t5)) :
    pStr (fuel + 1) ('\\' :: 'u' :: t)
      = consFst (Char.ofNat (65536 + (n - 55296) * 1024 + (m - 56320)))
        (pStr fuel t5) := by
  simp [pStr, h, hs, h2]

/-- Parsing an escaped string body followed by the closing quote recovers
the original characters. -/
theorem pStr_escape (s : List Char) : ∀ fuel rest, s.length < fuel →
    pStr fuel (escStr s ++ '"' :: rest) = some (s, rest) := by
  induction s with
  | nil =>
    intro fuel rest hf
    match fuel, hf with
    | fuel + 1, _ =>
      rw [show escStr [] ++ '"' :: rest = '"' :: rest from rfl, pStr_quote]
  | cons c s ih =>
    intro fuel rest hf
    match fuel, hf with
    | fuel + 1, hf =>
    have hf' : s.length < fuel := by
      simp only [List.length_cons] at hf; omega
    have ihs := ih fuel rest hf'
    have hesc : escStr (c :: s) = escChar c ++ escStr s := by
      simp [escStr]
    rw [hesc, List.append_assoc]
    by_cases h1 : c = '"'
    · subst h1
      rw [show escChar '"' = ['\\', '"'] from rfl]
      simp only [List.cons_append, List.nil_append]
      rw [pStr_esc_quote, ihs]
      rfl
    by_cases h2 : c = '\\'
    · subst h2
      rw [show escChar '\\' = ['\\', '\\'] from rfl]
      simp only [List.cons_append, List.nil_append]
      rw [pStr_esc_bslash, ihs]
      rfl
    by_cases h3 : c = '\n'
    · subst h3
      rw [show escChar '\n' = ['\\', 'n'] from rfl]
      simp only [List.cons_append, List.nil_append]
      rw [pStr_esc_n, ihs]
      rfl
    by_cases h4 : c = '\t'
    · subst h4
      rw [show escChar '\t' = ['\\', 't'] from rfl]
      simp only [List.cons_append, List.nil_append]
      rw [pStr_esc_t, ihs]
      rfl
    by_cases h5 : c = '\r'
    · subst h5
      rw [show escChar '\r' = ['\\', 'r'] from rfl]
      simp only [List.cons_append, List.nil_append]
      rw [pStr_esc_r, ihs]
      rfl
    by_cases h6 : c.toNat = 8
    · have hc : Char.ofNat 8 = c := by rw [← h6, Char.ofNat_toNat]
      have he : escChar c = ['\\', 'b'] := by
        simp [escChar, h1, h2, h3, h4, h5, h6]
      rw [he]
      simp only [List.cons_append, List.nil_append]
      rw [pStr_esc_b, ihs, hc]
      rfl
    by_cases h7 : c.toNat = 12
    · have hc : Char.ofNat 12 = c := by rw [← h7, Char.ofNat_toNat]
      have he : escChar c = ['\\', 'f'] := by
        simp [escChar, h1, h2, h3, h4, h5, h6, h7]
      rw [he]
      simp only [List.cons_append, List.nil_append]
      rw [pStr_esc_f, ihs, hc]
      rfl
    by_cases h8 : c.toNat < 32 ∨ 127 ≤ c.toNat
    · by_cases h9 : c.toNat < 65536
      · have he : escChar c = '\\' :: 'u' :: hex4 c.toNat := by
          simp [escChar, h1, h2, h3, h4, h5, h6, h7, h8, h9]
        rw [he]
        have hsur : ¬(55296 ≤ c.toNat ∧ c.toNat < 56320) := by
          rcases char_valid_nat c with h | h
          · omega
          · omega
        simp only [List.cons_append]
        rw [pStr_esc_u fuel _ _ c.toNat (readHex4_hex4 c.toNat h9 _) hsur,
          ihs, Char.ofNat_toNat]
        rfl
      · have hlt : c.toNat < 1114112 := by
          rcases char_valid_nat c with h | h
          · omega
          · exact h.2
        have he : escChar c = '\\' :: 'u' ::
            (hex4 (55296 + (c.toNat - 65536) / 1024)
              ++ '\\' :: 'u' :: hex4 (56320 + (c.toNat - 65536) % 1024)) := by
          simp [escChar, h1, h2, h3, h4, h5, h6, h7, h8, h9]
        rw [he]
        have hhi : 55296 + (c.toNat - 65536) / 1024 < 65536 := by omega
        have hlo : 56320 + (c.toNat - 65536) % 1024 < 65536 := by omega
        have hsur : 55296 ≤ 55296 + (c.toNat - 65536) / 1024 ∧
            55296 + (c.toNat - 65536) / 1024 < 56320 := by
          constructor
          · omega
          · omega
        have hchar : Char.ofNat (65536
            + (55296 + (c.toNat - 65536) / 1024 - 55296) * 1024
            + (56320 + (c.toNat - 65536) % 1024 - 56320)) = c := by
          have harith : 65536
              + (55296 + (c.toNat - 65536) / 1024 - 55296) * 1024
              + (56320 + (c.toNat - 65536) % 1024 - 56320) = c.toNat := by
            omega
          rw [harith, Char.ofNat_toNat]
        simp only [List.cons_append, List.append_assoc]
        rw [pStr_esc_u2 fuel _ _ _
            (55296 + (c.toNat - 65536) / 1024)
            (56320 + (c.toNat - 65536) % 1024)
            (by
              have := readHex4_hex4 (55296 + (c.toNat - 65536) / 1024) hhi
                ('\\' :: 'u' :: (hex4 (56320 + (c.toNat - 65536) % 1024)
                  ++ (escStr s ++ '"' :: rest)))
              simpa using this)
            hsur
            (readHex4_hex4 (56320 + (c.toNat - 65536) % 1024) hlo _),
          ihs, hchar]
        rfl
    · have he : escChar c = [c] := by
        simp [escChar, h1, h2, h3, h4, h5, h6, h7, h8]
      rw [he, List.singleton_append, pStr_cons_plain fuel c _ h1 h2, ihs]
      rfl

/-! ## Line-structure lemmas for the dump -/

theorem flatNl_cons_ne (l : List Char) (ls : List (List Char)) (h : ls ≠ []) :
    flatNl (l :: ls) = l ++ '\n' :: flatNl ls := by
  cases ls with
  | nil => exact absurd rfl h
  | cons x xs => rfl

theorem flatNl_append (as bs : List (List Char)) (ha : as ≠ []) (hb : bs ≠ []) :
    flatNl (as ++ bs) = flatNl as ++ '\n' :: flatNl bs := by
  induction as with
  | nil => exact absurd rfl ha
  | cons a as ih =>
    cases as with
    | nil =>
      rw [List.singleton_append, flatNl_cons_ne a bs hb]
      rfl
    | cons a2 as2 =>
      rw [List.cons_append, flatNl_cons_ne a ((a2 :: as2) ++ bs) (by simp),
        flatNl_cons_ne a (a2 :: as2) (by simp), ih (by simp)]
      simp [List.append_assoc]

theorem flatNl_prefixHead (pre : List Char) (ls : List (List Char)) :
    flatNl (prefixHead pre ls) = pre ++ flatNl ls := by
  cases ls with
  | nil => simp [prefixHead, flatNl]
  | cons l ls =>
    cases ls with
    | nil => rfl
    | cons x xs =>
      rw [show prefixHead pre (l :: x :: xs) = (pre ++ l) :: x :: xs from rfl,
        flatNl_cons_ne (pre ++ l) (x :: xs) (by simp),
        flatNl_cons_ne l (x :: xs) (by simp), List.append_assoc]

theorem suffixLast_ne_nil (suf : List Char) (ls : List (List Char))
    (h : ls ≠ []) : suffixLast suf ls ≠ [] := by
  cases ls with
  | nil => exact absurd rfl h
  | cons l ls =>
    cases ls with
    | nil => simp [suffixLast]
    | cons x xs => simp [suffixLast]

theorem prefixHead_ne_nil (pre : List Char) (ls : List (List Char)) :
    prefixHead pre ls ≠ [] := by
  cases ls with
  | nil => simp [prefixHead]
  | cons l ls => simp [prefixHead]

theorem flatNl_suffixLast (suf : List Char) (ls : List (List Char))
    (h : ls ≠ []) : flatNl (suffixLast suf ls) = flatNl ls ++ suf := by
  induction ls with
  | nil => exact absurd rfl h
  | cons l ls ih =>
    cases ls with
    | nil => rfl
    | cons x xs =>
      rw [show suffixLast suf (l :: x :: xs) = l :: suffixLast suf (x :: xs)
          from rfl,
        flatNl_cons_ne l (suffixLast suf (x :: xs))
          (suffixLast_ne_nil suf (x :: xs) (by simp)),
        ih (by simp), flatNl_cons_ne l (x :: xs) (by simp)]
      simp [List.append_assoc]

theorem dumpLines_ne_nil (ind : Nat) (v : JValue) : dumpLines ind v ≠ [] := by
  cases v with
  | jnull => simp [dumpLines]
  | jbool b => cases b <;> simp [dumpLines]
  | jnum i => simp [dumpLines]
  | jstr s => simp [dumpLines]
  | jarr a => cases a <;> simp [dumpLines]
  | jobj o => cases o <;> simp [dumpLines]

theorem dumpArr_ne_nil (ind : Nat) (v : JValue) (a : JArr) :
    dumpArr ind v a ≠ [] := by
  cases a with
  | anil =>
    rw [show dumpArr ind v .anil = prefixHead (indentC ind) (dumpLines ind v)
        from by rw [dumpArr]]
    exact prefixHead_ne_nil _ _
  | acons w a2 =>
    rw [show dumpArr ind v (.acons w a2)
        = suffixLast [','] (prefixHead (indentC ind) (dumpLines ind v))
          ++ dumpArr ind w a2 from by rw [dumpArr]]
    exact List.append_ne_nil_of_left_ne_nil
      (suffixLast_ne_nil _ _ (prefixHead_ne_nil _ _)) _

theorem dumpObj_ne_nil (ind : Nat) (k : List Char) (v : JValue) (o : JObj) :
    dumpObj ind k v o ≠ [] := by
  cases o with
  | onil =>
    rw [show dumpObj ind k v .onil
        = prefixHead (indentC ind ++ quoteStr k ++ [':', ' '])
          (dumpLines ind v) from by rw [dumpObj]]
    exact prefixHead_ne_nil _ _
  | ocons k2 v2 o2 =>
    rw [show dumpObj ind k v (.ocons k2 v2 o2)
        = suffixLast [','] (prefixHead (indentC ind ++ quoteStr k ++ [':', ' '])
          (dumpLines ind v)) ++ dumpObj ind k2 v2 o2 from by rw [dumpObj]]
    exact List.append_ne_nil_of_left_ne_nil
      (suffixLast_ne_nil _ _ (prefixHead_ne_nil _ _)) _

/-! ## Whitespace-skipping lemmas -/

theorem skipWs_cons_not (c : Char) (t : List Char) (h : isWsC c = false) :
    skipWs (c :: t) = c :: t := by
  simp [skipWs, List.dropWhile_cons, h]

theorem skipWs_append_ws (ws x : List Char) (h : ∀ c ∈ ws, isWsC c = true) :
    skipWs (ws ++ x) = skipWs x := by
  induction ws with
  | nil => rfl
  | cons c t ih =>
    simp only [List.cons_append, skipWs, List.dropWhile_cons, h c (by simp)]
    exact ih (fun a ha => h a (by simp [ha]))

theorem isWsC_indentC (k : Nat) : ∀ c ∈ indentC k, isWsC c = true := by
  intro c hc
  rw [indentC] at hc
  have := List.eq_of_mem_replicate hc
  rw [this]
  rfl

theorem skipWs_nl (x : List Char) : skipWs ('\n' :: x) = skipWs x := by
  simp [skipWs, List.dropWhile_cons, isWsC]

theorem skipWs_nl_indent (k : Nat) (x : List Char) :
    skipWs ('\n' :: (indentC k ++ x)) = skipWs x := by
  rw [skipWs_nl, skipWs_append_ws _ _ (isWsC_indentC k)]

/-! ## Parser step lemmas -/

theorem digit_ne (c : Char) (h : isDigitC c = true) :
    c ≠ '{' ∧ c ≠ '[' ∧ c ≠ '"' ∧ c ≠ 't' ∧ c ≠ 'f' ∧ c ≠ 'n' ∧ c ≠ '-' := by
  refine ⟨?_, ?_, ?_, ?_, ?_, ?_, ?_⟩ <;>
    (intro he; subst he; exact absurd h (by decide))

theorem pVal_ws (fuel : Nat) (ws x : List Char)
    (h : ∀ c ∈ ws, isWsC c = true) :
    pVal fuel (ws ++ x) = pVal fuel x := by
  cases fuel with
  | zero => rfl
  | succ fuel =>
    simp only [pVal]
    rw [skipWs_append_ws ws x h]

theorem pVal_null (fuel : Nat) (s t : List Char)
    (hs : skipWs s = 'n' :: 'u' :: 'l' :: 'l' :: t) :
    pVal (fuel + 1) s = some (.jnull, t) := by
  simp [pVal, hs]

theorem pVal_true (fuel : Nat) (s t : List Char)
    (hs : skipWs s = 't' :: 'r' :: 'u' :: 'e' :: t) :
    pVal (fuel + 1) s = some (.jbool true, t) := by
  simp [pVal, hs]

theorem pVal_false (fuel : Nat) (s t : List Char)
    (hs : skipWs s = 'f' :: 'a' :: 'l' :: 's' :: 'e' :: t) :
    pVal (fuel + 1) s = some (.jbool false, t) := by
  simp [pVal, hs]

theorem pVal_str (fuel : Nat) (s t r str : List Char)
    (hs : skipWs s = '"' :: t) (hp : pStr fuel t = some (str, r)) :
    pVal (fuel + 1) s = some (.jstr str, r) := by
  simp [pVal, hs, hp]

theorem pVal_neg (fuel : Nat) (s t r : List Char) (n : Nat)
    (hs : skipWs s = '-' :: t) (hn : pNatNum t = some (n, r)) :
    pVal (fuel + 1) s = some (.jnum (-(n : Int)), r) := by
  simp [pVal, hs, hn]

theorem pVal_digit (fuel : Nat) (s t r : List Char) (c : Char) (n : Nat)
    (hs : skipWs s = c :: t) (hc : isDigitC c = true)
    (hn : pNatNum (c :: t) = some (n, r)) :
    pVal (fuel + 1) s = some (.jnum (n : Int), r) := by
  obtain ⟨n1, n2, n3, n4, n5, n6, n7⟩ := digit_ne c hc
  simp [pVal, hs, hc, hn, n1, n2, n3, n4, n5, n6, n7]

theorem pVal_arr_empty (fuel : Nat) (s t t2 : List Char)
    (hs : skipWs s = '[' :: t) (ht : skipWs t = ']' :: t2) :
    pVal (fuel + 1) s = some (.jarr .anil, t2) := by
  simp [pVal, hs, ht]

theorem pVal_obj_empty (fuel : Nat) (s t t2 : List Char)
    (hs : skipWs s = '{' :: t) (ht : skipWs t = '}' :: t2) :
    pVal (fuel + 1) s = some (.jobj .onil, t2) := by
  simp [pVal, hs, ht]

theorem pVal_arr (fuel : Nat) (s t t2 r : List Char) (c : Char) (a : JArr)
    (hs : skipWs s = '[' :: t) (ht : skipWs t = c :: t2) (hne : c ≠ ']')
    (hp : pArr fuel t = some (a, r)) :
    pVal (fuel + 1) s = some (.jarr a, r) := by
  simp [pVal, hs, ht, hp]
  split
  · rename_i heq
    rw [List.cons.injEq] at heq
    exact absurd heq.1 hne
  · rfl

theorem pVal_obj (fuel : Nat) (s t t2 r : List Char) (c : Char) (o : JObj)
    (hs : skipWs s = '{' :: t) (ht : skipWs t = c :: t2) (hne : c ≠ '}')
    (hp : pObj fuel t = some (o, r)) :
    pVal (fuel + 1) s = some (.jobj o, r) := by
  simp [pVal, hs, ht, hp]
  split
  · rename_i heq
    rw [List.cons.injEq] at heq
    exact absurd heq.1 hne
  · rfl

theorem pArr_cons (fuel : Nat) (s r r2 r3 : List Char) (v : JValue) (a : JArr)
    (hv : pVal fuel s = some (v, r)) (hr : skipWs r = ',' :: r2)
    (hp : pArr fuel r2 = some (a, r3)) :
    pArr (fuel + 1) s = some (.acons v a, r3) := by
  simp [pArr, hv, hr, hp]

theorem pArr_last (fuel : Nat) (s r r2 : List Char) (v : JValue)
    (hv : pVal fuel s = some (v, r)) (hr : skipWs r = ']' :: r2) :
    pArr (fuel + 1) s = some (.acons v .anil, r2) := by
  simp [pArr, hv, hr]

theorem pObj_cons (fuel : Nat) (s t r r2 r3 r4 : List Char) (k : List Char)
    (v : JValue) (o : JObj)
    (hs : skipWs s = '"' :: t) (hk : pStr fuel t = some (k, r))
    (hr : skipWs r = ':' :: r2) (hv : pVal fuel r2 = some (v, r3))
    (h3 : skipWs r3 = ',' :: r4) (hp : pObj fuel r4 = some (o, r3')) :
    pObj (fuel + 1) s = some (.ocons k v o, r3') := by
  simp [pObj, hs, hk, hr, hv, h3, hp]

theorem pObj_last (fuel : Nat) (s t r r2 r3 r4 : List Char) (k : List Char)
    (v : JValue)
    (hs : skipWs s = '"' :: t) (hk : pStr fuel t = some (k, r))
    (hr : skipWs r = ':' :: r2) (hv : pVal fuel r2 = some (v, r3))
    (h3 : skipWs r3 = '}' :: r4) :
    pObj (fuel + 1) s = some (.ocons k v .onil, r4) := by
  simp [pObj, hs, hk, hr, hv, h3]

/-! ## Flat-text decompositions of the dump -/

theorem dumpArr_flat_anil (ind : Nat) (v : JValue) :
    flatNl (dumpArr ind v .anil) = indentC ind ++ flatNl (dumpLines ind v) := by
  rw [show dumpArr ind v .anil = prefixHead (indentC ind) (dumpLines ind v)
      from by rw [dumpArr], flatNl_prefixHead]

theorem dumpArr_flat_acons (ind : Nat) (v w : JValue) (a : JArr) :
    flatNl (dumpArr ind v (.acons w a))
      = indentC ind ++ (flatNl (dumpLines ind v)
          ++ ',' :: '\n' :: flatNl (dumpArr ind w a)) := by
  rw [show dumpArr ind v (.acons w a)
      = suffixLast [','] (prefixHead (indentC ind) (dumpLines ind v))
        ++ dumpArr ind w a from by rw [dumpArr],
    flatNl_append _ _ (suffixLast_ne_nil _ _ (prefixHead_ne_nil _ _))
      (dumpArr_ne_nil ind w a),
    flatNl_suffixLast _ _ (prefixHead_ne_nil _ _), flatNl_prefixHead]
  simp [List.append_assoc]

theorem dumpObj_flat_onil (ind : Nat) (k : List Char) (v : JValue) :
    flatNl (dumpObj ind k v .onil)
      = indentC ind ++ (quoteStr k
          ++ ':' :: ' ' :: flatNl (dumpLines ind v)) := by
  rw [show dumpObj ind k v .onil
      = prefixHead (indentC ind ++ quoteStr k ++ [':', ' '])
        (dumpLines ind v) from by rw [dumpObj], flatNl_prefixHead]
  simp [List.append_assoc]

theorem dumpObj_flat_ocons (ind : Nat) (k k2 : List Char) (v v2 : JValue)
    (o : JObj) :
    flatNl (dumpObj ind k v (.ocons k2 v2 o))
      = indentC ind ++ (quoteStr k ++ ':' :: ' ' :: (flatNl (dumpLines ind v)
          ++ ',' :: '\n' :: flatNl (dumpObj ind k2 v2 o))) := by
  rw [show dumpObj ind k v (.ocons k2 v2 o)
      = suffixLast [','] (prefixHead (indentC ind ++ quoteStr k ++ [':', ' '])
        (dumpLines ind v)) ++ dumpObj ind k2 v2 o from by rw [dumpObj],
    flatNl_append _ _ (suffixLast_ne_nil _ _ (prefixHead_ne_nil _ _))
      (dumpObj_ne_nil ind k2 v2 o),
    flatNl_suffixLast _ _ (prefixHead_ne_nil _ _), flatNl_prefixHead]
  simp [List.append_assoc]

theorem dumpLines_arr_flat (ind : Nat) (v : JValue) (a : JArr) :
    flatNl (dumpLines ind (.jarr (.acons v a)))
      = '[' :: '\n' :: (flatNl (dumpArr (ind + 2) v a)
          ++ '\n' :: (indentC ind ++ [']'])) := by
  rw [show dumpLines ind (.jarr (.acons v a))
      = ['['] :: (dumpArr (ind + 2) v a ++ [indentC ind ++ [']']])
      from by rw [dumpLines]; rfl,
    flatNl_cons_ne _ _ (List.append_ne_nil_of_left_ne_nil
      (dumpArr_ne_nil _ _ _) _),
    flatNl_append _ _ (dumpArr_ne_nil _ _ _) (by simp)]
  rfl

theorem dumpLines_obj_flat (ind : Nat) (k : List Char) (v : JValue)
    (o : JObj) :
    flatNl (dumpLines ind (.jobj (.ocons k v o)))
      = '{' :: '\n' :: (flatNl (dumpObj (ind + 2) k v o)
          ++ '\n' :: (indentC ind ++ ['}'])) := by
  rw [show dumpLines ind (.jobj (.ocons k v o))
      = ['{'] :: (dumpObj (ind + 2) k v o ++ [indentC ind ++ ['}']])
      from by rw [dumpLines]; rfl,
    flatNl_cons_ne _ _ (List.append_ne_nil_of_left_ne_nil
      (dumpObj_ne_nil _ _ _ _) _),
    flatNl_append _ _ (dumpObj_ne_nil _ _ _ _) (by simp)]
  rfl

/-! ## The first character of a dumped value -/

theorem natChars_head (n : Nat) :
    ∃ c t, natChars n = c :: t ∧ isDigitC c = true := by
  cases hn : natChars n with
  | nil => exact absurd hn (natChars_ne_nil n)
  | cons c t =>
    exact ⟨c, t, rfl, natChars_digits n c (by rw [hn]; exact List.mem_cons_self c t)⟩

/-- Every dumped value starts with a structural token: an opening brace or
bracket, a quote, the first letter of a literal, a minus sign or a digit. -/
theorem dump_head (ind : Nat) (v : JValue) :
    ∃ c t, flatNl (dumpLines ind v) = c :: t ∧
      (c = '{' ∨ c = '[' ∨ c = '"' ∨ c = 't' ∨ c = 'f' ∨ c = 'n' ∨ c = '-'
        ∨ isDigitC c = true) := by
  cases v with
  | jnull =>
    refine ⟨'n', _, by rw [dumpLines]; rfl, by simp⟩
  | jbool b =>
    cases b with
    | true => refine ⟨'t', _, by rw [dumpLines]; rfl, by simp⟩
    | false => refine ⟨'f', _, by rw [dumpLines]; rfl, by simp⟩
  | jnum i =>
    by_cases hi : i < 0
    · refine ⟨'-', natChars i.natAbs, ?_, by simp⟩
      rw [show dumpLines ind (.jnum i) = [intChars i] from by rw [dumpLines]]
      rw [show flatNl [intChars i] = intChars i from rfl, intChars, if_pos hi]
    · obtain ⟨c, t, hct, hd⟩ := natChars_head i.natAbs
      refine ⟨c, t, ?_, by simp [hd]⟩
      rw [show dumpLines ind (.jnum i) = [intChars i] from by rw [dumpLines]]
      rw [show flatNl [intChars i] = intChars i from rfl, intChars, if_neg hi,
        hct]
  | jstr s =>
    refine ⟨'"', escStr s ++ ['"'], ?_, by simp⟩
    rw [show dumpLines ind (.jstr s) = [quoteStr s] from by rw [dumpLines]]
    rfl
  | jarr a =>
    cases a with
    | anil => refine ⟨'[', _, by rw [dumpLines]; rfl, by simp⟩
    | acons v a => exact ⟨'[', _, dumpLines_arr_flat ind v a, by simp⟩
  | jobj o =>
    cases o with
    | onil => refine ⟨'{', _, by rw [dumpLines]; rfl, by simp⟩
    | ocons k v o => exact ⟨'{', _, dumpLines_obj_flat ind k v o, by simp⟩

/-- Structural tokens are not whitespace and differ from the closing
characters and from the ampersand of `&nbsp;`. -/
theorem head_tok_props (c : Char)
    (h : c = '{' ∨ c = '[' ∨ c = '"' ∨ c = 't' ∨ c = 'f' ∨ c = 'n' ∨ c = '-'
      ∨ isDigitC c = true) :
    isWsC c = false ∧ c ≠ ']' ∧ c ≠ '}' ∧ c ≠ '&' := by
  rcases h with h | h | h | h | h | h | h | h
  · subst h; exact ⟨by decide, by decide, by decide, by decide⟩
  · subst h; exact ⟨by decide, by decide, by decide, by decide⟩
  · subst h; exact ⟨by decide, by decide, by decide, by decide⟩
  · subst h; exact ⟨by decide, by decide, by decide, by decide⟩
  · subst h; exact ⟨by decide, by decide, by decide, by decide⟩
  · subst h; exact ⟨by decide, by decide, by decide, by decide⟩
  · subst h; exact ⟨by decide, by decide, by decide, by decide⟩
  · refine ⟨?_, ?_, ?_, ?_⟩
    · cases hw : isWsC c
      · rfl
      · exfalso
        have hcc : c = ' ' ∨ c = '\n' := by
          simpa [isWsC] using hw
        rcases hcc with h' | h' <;> (subst h'; exact absurd h (by decide))
    · intro he; subst he; exact absurd h (by decide)
    · intro he; subst he; exact absurd h (by decide)
    · intro he; subst he; exact absurd h (by decide)

/-! ## Fuel positivity and whitespace run lemmas -/

theorem jfuelV_pos (v : JValue) : 1 ≤ jfuelV v := by
  cases v <;> simp [jfuelV] <;> omega

theorem jfuelA_pos (a : JArr) : 1 ≤ jfuelA a := by
  cases a <;> simp [jfuelA] <;> omega

theorem jfuelO_pos (o : JObj) : 1 ≤ jfuelO o := by
  cases o <;> simp [jfuelO] <;> omega

theorem ws_nl_indent (k : Nat) : ∀ c ∈ '\n' :: indentC k, isWsC c = true := by
  intro c hc
  rcases List.mem_cons.1 hc with h | h
  · rw [h]; rfl
  · exact isWsC_indentC k c h

theorem ws_space : ∀ c ∈ ([' '] : List Char), isWsC c = true := by
  intro c hc
  simp at hc
  rw [hc]; rfl

theorem dumpArr_flat_head (ind : Nat) (v : JValue) (a : JArr) :
    ∃ Y, flatNl (dumpArr ind v a)
      = indentC ind ++ (flatNl (dumpLines ind v) ++ Y) := by
  cases a with
  | anil => exact ⟨[], by rw [dumpArr_flat_anil]; simp⟩
  | acons w a2 => exact ⟨_, by rw [dumpArr_flat_acons]⟩

theorem dumpObj_flat_head (ind : Nat) (k : List Char) (v : JValue) (o : JObj) :
    ∃ Y, flatNl (dumpObj ind k v o) = indentC ind ++ (quoteStr k ++ Y) := by
  cases o with
  | onil => exact ⟨_, by rw [dumpObj_flat_onil]⟩
  | ocons k2 v2 o2 => exact ⟨_, by rw [dumpObj_flat_ocons]⟩

/-! ## The roundtrip induction, one layer at a time -/

theorem pArr_dump_step (fuel : Nat)
    (hV : ∀ v ind rest, delim rest → jfuelV v ≤ fuel →
      pVal fuel (flatNl (dumpLines ind v) ++ rest) = some (v, rest))
    (hA : ∀ ind v a rest, jfuelA (.acons v a) ≤ fuel →
      pArr fuel ('\n' :: (flatNl (dumpArr (ind + 2) v a)
        ++ '\n' :: (indentC ind ++ ']' :: rest))) = some (.acons v a, rest)) :
    ∀ ind v a rest, jfuelA (.acons v a) ≤ fuel + 1 →
      pArr (fuel + 1) ('\n' :: (flatNl (dumpArr (ind + 2) v a)
        ++ '\n' :: (indentC ind ++ ']' :: rest))) = some (.acons v a, rest) := by
  intro ind v a rest hfuel
  rw [jfuelA] at hfuel
  have hvb : jfuelV v ≤ fuel := by
    have := jfuelA_pos a; omega
  cases a with
  | anil =>
    rw [dumpArr_flat_anil]
    have hshape : ('\n' :: ((indentC (ind + 2)
          ++ flatNl (dumpLines (ind + 2) v))
        ++ '\n' :: (indentC ind ++ ']' :: rest)))
        = ('\n' :: indentC (ind + 2)) ++ (flatNl (dumpLines (ind + 2) v)
          ++ '\n' :: (indentC ind ++ ']' :: rest)) := by
      simp [List.append_assoc]
    rw [hshape]
    have hv : pVal fuel (('\n' :: indentC (ind + 2))
        ++ (flatNl (dumpLines (ind + 2) v)
          ++ '\n' :: (indentC ind ++ ']' :: rest)))
        = some (v, '\n' :: (indentC ind ++ ']' :: rest)) := by
      rw [pVal_ws fuel _ _ (ws_nl_indent (ind + 2))]
      exact hV v (ind + 2) _ (Or.inr rfl) hvb
    exact pArr_last fuel _ _ rest v hv (skipWs_nl_indent ind (']' :: rest))
  | acons w a2 =>
    rw [dumpArr_flat_acons]
    have hshape : ('\n' :: ((indentC (ind + 2)
          ++ (flatNl (dumpLines (ind + 2) v)
            ++ ',' :: '\n' :: flatNl (dumpArr (ind + 2) w a2)))
        ++ '\n' :: (indentC ind ++ ']' :: rest)))
        = ('\n' :: indentC (ind + 2)) ++ (flatNl (dumpLines (ind + 2) v)
          ++ ',' :: ('\n' :: (flatNl (dumpArr (ind + 2) w a2)
            ++ '\n' :: (indentC ind ++ ']' :: rest)))) := by
      simp [List.append_assoc]
    rw [hshape]
    have hv : pVal fuel (('\n' :: indentC (ind + 2))
        ++ (flatNl (dumpLines (ind + 2) v)
          ++ ',' :: ('\n' :: (flatNl (dumpArr (ind + 2) w a2)
            ++ '\n' :: (indentC ind ++ ']' :: rest)))))
        = some (v, ',' :: ('\n' :: (flatNl (dumpArr (ind + 2) w a2)
          ++ '\n' :: (indentC ind ++ ']' :: rest)))) := by
      rw [pVal_ws fuel _ _ (ws_nl_indent (ind + 2))]
      exact hV v (ind + 2) _ (Or.inl rfl) hvb
    have hp : pArr fuel ('\n' :: (flatNl (dumpArr (ind + 2) w a2)
        ++ '\n' :: (indentC ind ++ ']' :: rest)))
        = some (.acons w a2, rest) := by
      apply hA
      have := jfuelV_pos v; omega
    exact pArr_cons fuel _ _ _ rest v (.acons w a2) hv
      (skipWs_cons_not _ _ (by decide)) hp

theorem pObj_dump_step (fuel : Nat)
    (hV : ∀ v ind rest, delim rest → jfuelV v ≤ fuel →
      pVal fuel (flatNl (dumpLines ind v) ++ rest) = some (v, rest))
    (hO : ∀ ind k v o rest, jfuelO (.ocons k v o) ≤ fuel →
      pObj fuel ('\n' :: (flatNl (dumpObj (ind + 2) k v o)
        ++ '\n' :: (indentC ind ++ '}' :: rest))) = some (.ocons k v o, rest)) :
    ∀ ind k v o rest, jfuelO (.ocons k v o) ≤ fuel + 1 →
      pObj (fuel + 1) ('\n' :: (flatNl (dumpObj (ind + 2) k v o)
        ++ '\n' :: (indentC ind ++ '}' :: rest))) = some (.ocons k v o, rest) := by
  intro ind k v o rest hfuel
  rw [jfuelO] at hfuel
  have hvb : jfuelV v ≤ fuel := by
    have := jfuelO_pos o; omega
  have hkb : k.length < fuel := by
    have := jfuelO_pos o; have := jfuelV_pos v; omega
  cases o with
  | onil =>
    rw [dumpObj_flat_onil]
    have hshape : ('\n' :: ((indentC (ind + 2)
          ++ (quoteStr k ++ ':' :: ' ' :: flatNl (dumpLines (ind + 2) v)))
        ++ '\n' :: (indentC ind ++ '}' :: rest)))
        = ('\n' :: indentC (ind + 2)) ++ (('"' :: (escStr k
          ++ '"' :: (':' :: ' ' :: (flatNl (dumpLines (ind + 2) v)
            ++ '\n' :: (indentC ind ++ '}' :: rest)))))) := by
      simp [quoteStr, List.append_assoc]
    rw [hshape]
    have hs : skipWs (('\n' :: indentC (ind + 2)) ++ (('"' :: (escStr k
        ++ '"' :: (':' :: ' ' :: (flatNl (dumpLines (ind + 2) v)
          ++ '\n' :: (indentC ind ++ '}' :: rest)))))))
        = '"' :: (escStr k ++ '"' :: (':' :: ' ' :: (flatNl
            (dumpLines (ind + 2) v)
          ++ '\n' :: (indentC ind ++ '}' :: rest)))) := by
      rw [skipWs_append_ws _ _ (ws_nl_indent (ind + 2))]
      exact skipWs_cons_not _ _ (by decide)
    have hk : pStr fuel (escStr k ++ '"' :: (':' :: ' ' :: (flatNl
          (dumpLines (ind + 2) v) ++ '\n' :: (indentC ind ++ '}' :: rest))))
        = some (k, ':' :: ' ' :: (flatNl (dumpLines (ind + 2) v)
          ++ '\n' :: (indentC ind ++ '}' :: rest))) :=
      pStr_escape k fuel _ hkb
    have hv : pVal fuel (' ' :: (flatNl (dumpLines (ind + 2) v)
        ++ '\n' :: (indentC ind ++ '}' :: rest)))
        = some (v, '\n' :: (indentC ind ++ '}' :: rest)) := by
      rw [show (' ' :: (flatNl (dumpLines (ind + 2) v)
          ++ '\n' :: (indentC ind ++ '}' :: rest)))
          = [' '] ++ (flatNl (dumpLines (ind + 2) v)
            ++ '\n' :: (indentC ind ++ '}' :: rest)) from rfl,
        pVal_ws fuel _ _ ws_space]
      exact hV v (ind + 2) _ (Or.inr rfl) hvb
    exact pObj_last fuel _ _ _ _ _ rest k v hs hk
      (skipWs_cons_not _ _ (by decide)) hv (skipWs_nl_indent ind ('}' :: rest))
  | ocons k2 v2 o2 =>
    rw [dumpObj_flat_ocons]
    have hshape : ('\n' :: ((indentC (ind + 2)
          ++ (quoteStr k ++ ':' :: ' ' :: (flatNl (dumpLines (ind + 2) v)
            ++ ',' :: '\n' :: flatNl (dumpObj (ind + 2) k2 v2 o2))))
        ++ '\n' :: (indentC ind ++ '}' :: rest)))
        = ('\n' :: indentC (ind + 2)) ++ (('"' :: (escStr k
          ++ '"' :: (':' :: ' ' :: (flatNl (dumpLines (ind + 2) v)
            ++ ',' :: ('\n' :: (flatNl (dumpObj (ind + 2) k2 v2 o2)
              ++ '\n' :: (indentC ind ++ '}' :: rest)))))))) := by
      simp [quoteStr, List.append_assoc]
    rw [hshape]
    have hs : skipWs (('\n' :: indentC (ind + 2)) ++ (('"' :: (escStr k
        ++ '"' :: (':' :: ' ' :: (flatNl (dumpLines (ind + 2) v)
          ++ ',' :: ('\n' :: (flatNl (dumpObj (ind + 2) k2 v2 o2)
            ++ '\n' :: (indentC ind ++ '}' :: rest)))))))))
        = '"' :: (escStr k ++ '"' :: (':' :: ' ' :: (flatNl
            (dumpLines (ind + 2) v)
          ++ ',' :: ('\n' :: (flatNl (dumpObj (ind + 2) k2 v2 o2)
            ++ '\n' :: (indentC ind ++ '}' :: rest)))))) := by
      rw [skipWs_append_ws _ _ (ws_nl_indent (ind + 2))]
      exact skipWs_cons_not _ _ (by decide)
    have hk : pStr fuel (escStr k ++ '"' :: (':' :: ' ' :: (flatNl
          (dumpLines (ind + 2) v) ++ ',' :: ('\n' :: (flatNl
            (dumpObj (ind + 2) k2 v2 o2)
          ++ '\n' :: (indentC ind ++ '}' :: rest))))))
        = some (k, ':' :: ' ' :: (flatNl (dumpLines (ind + 2) v)
          ++ ',' :: ('\n' :: (flatNl (dumpObj (ind + 2) k2 v2 o2)
            ++ '\n' :: (indentC ind ++ '}' :: rest))))) :=
      pStr_escape k fuel _ hkb
    have hv : pVal fuel (' ' :: (flatNl (dumpLines (ind + 2) v)
        ++ ',' :: ('\n' :: (flatNl (dumpObj (ind + 2) k2 v2 o2)
          ++ '\n' :: (indentC ind ++ '}' :: rest)))))
        = some (v, ',' :: ('\n' :: (flatNl (dumpObj (ind + 2) k2 v2 o2)
          ++ '\n' :: (indentC ind ++ '}' :: rest)))) := by
      rw [show (' ' :: (flatNl (dumpLines (ind + 2) v)
          ++ ',' :: ('\n' :: (flatNl (dumpObj (ind + 2) k2 v2 o2)
            ++ '\n' :: (indentC ind ++ '}' :: rest)))))
          = [' '] ++ (flatNl (dumpLines (ind + 2) v)
            ++ ',' :: ('\n' :: (flatNl (dumpObj (ind + 2) k2 v2 o2)
              ++ '\n' :: (indentC ind ++ '}' :: rest)))) from rfl,
        pVal_ws fuel _ _ ws_space]
      exact hV v (ind + 2) _ (Or.inl rfl) hvb
    have hp : pObj fuel ('\n' :: (flatNl (dumpObj (ind + 2) k2 v2 o2)
        ++ '\n' :: (indentC ind ++ '}' :: rest)))
        = some (.ocons k2 v2 o2, rest) := by
      apply hO
      have := jfuelV_pos v; omega
    exact pObj_cons fuel _ _ _ _ _ _ k v (.ocons k2 v2 o2) hs hk
      (skipWs_cons_not _ _ (by decide)) hv
      (skipWs_cons_not _ _ (by decide)) hp

theorem pVal_dump_step (fuel : Nat)
    (hA : ∀ ind v a rest, jfuelA (.acons v a) ≤ fuel →
      pArr fuel ('\n' :: (flatNl (dumpArr (ind + 2) v a)
        ++ '\n' :: (indentC ind ++ ']' :: rest))) = some (.acons v a, rest))
    (hO : ∀ ind k v o rest, jfuelO (.ocons k v o) ≤ fuel →
      pObj fuel ('\n' :: (flatNl (dumpObj (ind + 2) k v o)
        ++ '\n' :: (indentC ind ++ '}' :: rest))) = some (.ocons k v o, rest)) :
    ∀ v ind rest, delim rest → jfuelV v ≤ fuel + 1 →
      pVal (fuel + 1) (flatNl (dumpLines ind v) ++ rest) = some (v, rest) := by
  intro v ind rest hrest hfuel
  cases v with
  | jnull =>
    rw [show dumpLines ind .jnull = [['n', 'u', 'l', 'l']] from by
      rw [dumpLines]]
    exact pVal_null fuel _ rest (skipWs_cons_not _ _ (by decide))
  | jbool b =>
    cases b with
    | true =>
      rw [show dumpLines ind (.jbool true) = [['t', 'r', 'u', 'e']] from by
        rw [dumpLines]]
      exact pVal_true fuel _ rest (skipWs_cons_not _ _ (by decide))
    | false =>
      rw [show dumpLines ind (.jbool false) = [['f', 'a', 'l', 's', 'e']]
        from by rw [dumpLines]]
      exact pVal_false fuel _ rest (skipWs_cons_not _ _ (by decide))
  | jnum i =>
    rw [show dumpLines ind (.jnum i) = [intChars i] from by rw [dumpLines],
      show flatNl [intChars i] = intChars i from rfl]
    by_cases hi : i < 0
    · rw [show intChars i = '-' :: natChars i.natAbs from by
        rw [intChars, if_pos hi]]
      rw [show (.jnum i : JValue) = .jnum (-(i.natAbs : Int)) from by
        congr 1; omega]
      exact pVal_neg fuel _ (natChars i.natAbs ++ rest) rest i.natAbs
        (by rw [List.cons_append]; exact skipWs_cons_not _ _ (by decide))
        (pNatNum_natChars _ _ (delim_no_digit rest hrest))
    · obtain ⟨c, t0, hct, hd⟩ := natChars_head i.natAbs
      rw [show intChars i = natChars i.natAbs from by rw [intChars, if_neg hi]]
      rw [show (.jnum i : JValue) = .jnum ((i.natAbs : Int)) from by
        congr 1; omega]
      rw [hct]
      have hws : isWsC c = false :=
        (head_tok_props c (Or.inr (Or.inr (Or.inr (Or.inr (Or.inr (Or.inr
          (Or.inr hd)))))))).1
      refine pVal_digit fuel _ (t0 ++ rest) rest c i.natAbs
        (by rw [List.cons_append]; exact skipWs_cons_not _ _ hws) hd ?_
      rw [← List.cons_append, ← hct]
      exact pNatNum_natChars _ _ (delim_no_digit rest hrest)
  | jstr s =>
    rw [show dumpLines ind (.jstr s) = [quoteStr s] from by rw [dumpLines],
      show flatNl [quoteStr s] = quoteStr s from rfl]
    have hb : s.length < fuel := by
      rw [jfuelV] at hfuel; omega
    refine pVal_str fuel _ (escStr s ++ '"' :: rest) rest s ?_
      (pStr_escape s fuel rest hb)
    rw [show quoteStr s ++ rest = '"' :: (escStr s ++ '"' :: rest) from by
      simp [quoteStr]]
    exact skipWs_cons_not _ _ (by decide)
  | jarr a =>
    cases a with
    | anil =>
      rw [show dumpLines ind (.jarr .anil) = [['[', ']']] from by
        rw [dumpLines]]
      exact pVal_arr_empty fuel _ (']' :: rest) rest
        (skipWs_cons_not _ _ (by decide)) (skipWs_cons_not _ _ (by decide))
    | acons v a =>
      rw [dumpLines_arr_flat ind v a]
      have hshape : ('[' :: '\n' :: (flatNl (dumpArr (ind + 2) v a)
            ++ '\n' :: (indentC ind ++ [']']))) ++ rest
          = '[' :: ('\n' :: (flatNl (dumpArr (ind + 2) v a)
            ++ '\n' :: (indentC ind ++ ']' :: rest))) := by
        simp [List.append_assoc]
      rw [hshape]
      obtain ⟨c0, t0, hc0, htok⟩ := dump_head (ind + 2) v
      obtain ⟨hws0, hne0, hne0', _⟩ := head_tok_props c0 htok
      obtain ⟨Y, hY⟩ := dumpArr_flat_head (ind + 2) v a
      have hbA : jfuelA (.acons v a) ≤ fuel := by
        rw [jfuelV] at hfuel; omega
      have ht : skipWs ('\n' :: (flatNl (dumpArr (ind + 2) v a)
            ++ '\n' :: (indentC ind ++ ']' :: rest)))
          = c0 :: (t0 ++ (Y ++ '\n' :: (indentC ind ++ ']' :: rest))) := by
        rw [hY]
        have hsh2 : (indentC (ind + 2)
              ++ (flatNl (dumpLines (ind + 2) v) ++ Y))
              ++ '\n' :: (indentC ind ++ ']' :: rest)
            = indentC (ind + 2) ++ (flatNl (dumpLines (ind + 2) v)
              ++ (Y ++ '\n' :: (indentC ind ++ ']' :: rest))) := by
          simp [List.append_assoc]
        rw [hsh2, skipWs_nl_indent (ind + 2), hc0, List.cons_append]
        exact skipWs_cons_not _ _ hws0
      exact pVal_arr fuel _ _ _ rest c0 (.acons v a)
        (skipWs_cons_not _ _ (by decide)) ht hne0 (hA ind v a rest hbA)
  | jobj o =>
    cases o with
    | onil =>
      rw [show dumpLines ind (.jobj .onil) = [['{', '}']] from by
        rw [dumpLines]]
      exact pVal_obj_empty fuel _ ('}' :: rest) rest
        (skipWs_cons_not _ _ (by decide)) (skipWs_cons_not _ _ (by decide))
    | ocons k v o =>
      rw [dumpLines_obj_flat ind k v o]
      have hshape : ('{' :: '\n' :: (flatNl (dumpObj (ind + 2) k v o)
            ++ '\n' :: (indentC ind ++ ['}']))) ++ rest
          = '{' :: ('\n' :: (flatNl (dumpObj (ind + 2) k v o)
            ++ '\n' :: (indentC ind ++ '}' :: rest))) := by
        simp [List.append_assoc]
      rw [hshape]
      obtain ⟨Y, hY⟩ := dumpObj_flat_head (ind + 2) k v o
      have hbO : jfuelO (.ocons k v o) ≤ fuel := by
        rw [jfuelV] at hfuel; omega
      have ht : skipWs ('\n' :: (flatNl (dumpObj (ind + 2) k v o)
            ++ '\n' :: (indentC ind ++ '}' :: rest)))
          = '"' :: (escStr k
            ++ '"' :: (Y ++ '\n' :: (indentC ind ++ '}' :: rest))) := by
        rw [hY]
        have hsh2 : (indentC (ind + 2) ++ (quoteStr k ++ Y))
              ++ '\n' :: (indentC ind ++ '}' :: rest)
            = indentC (ind + 2) ++ ('"' :: (escStr k
              ++ '"' :: (Y ++ '\n' :: (indentC ind ++ '}' :: rest)))) := by
          simp [quoteStr, List.append_assoc]
        rw [hsh2, skipWs_nl_indent (ind + 2)]
        exact skipWs_cons_not _ _ (by decide)
      exact pVal_obj fuel _ _ _ rest '"' (.ocons k v o)
        (skipWs_cons_not _ _ (by decide)) ht (by decide)
        (hO ind k v o rest hbO)

/-- The parser inverts the dump, given fuel at least the value's measure. -/
theorem parse_dump (fuel : Nat) :
    (∀ v ind rest, delim rest → jfuelV v ≤ fuel →
      pVal fuel (flatNl (dumpLines ind v) ++ rest) = some (v, rest))
    ∧ (∀ ind v a rest, jfuelA (.acons v a) ≤ fuel →
      pArr fuel ('\n' :: (flatNl (dumpArr (ind + 2) v a)
        ++ '\n' :: (indentC ind ++ ']' :: rest))) = some (.acons v a, rest))
    ∧ (∀ ind k v o rest, jfuelO (.ocons k v o) ≤ fuel →
      pObj fuel ('\n' :: (flatNl (dumpObj (ind + 2) k v o)
        ++ '\n' :: (indentC ind ++ '}' :: rest)))
        = some (.ocons k v o, rest)) := by
  induction fuel with
  | zero =>
    refine ⟨?_, ?_, ?_⟩
    · intro v ind rest hd hb
      exact absurd hb (by have := jfuelV_pos v; omega)
    · intro ind v a rest hb
      exact absurd hb (by have := jfuelA_pos (.acons v a); omega)
    · intro ind k v o rest hb
      exact absurd hb (by have := jfuelO_pos (.ocons k v o); omega)
  | succ fuel ih =>
    obtain ⟨hV, hA, hO⟩ := ih
    exact ⟨pVal_dump_step fuel hA hO, pArr_dump_step fuel hV hA,
      pObj_dump_step fuel hV hO⟩

/-! ## Inverting the `&nbsp;` substitution -/

theorem nbspRestore_no_amp (x : List Char) (h : x.head? ≠ some '&') :
    nbspRestore x = x := by
  rw [nbspRestore.eq_def]
  split
  · simp at h
  · rfl

theorem nbspRestore_nbspC (n : Nat) (x : List Char) (h : x.head? ≠ some '&') :
    nbspRestore ((List.replicate n nbspC).flatten ++ x)
      = List.replicate n ' ' ++ x := by
  induction n with
  | zero => simpa using nbspRestore_no_amp x h
  | succ n ih =>
    rw [List.replicate_succ, List.flatten_cons, List.append_assoc]
    rw [show nbspC ++ ((List.replicate n nbspC).flatten ++ x)
        = '&' :: 'n' :: 'b' :: 's' :: 'p' :: ';'
          :: ((List.replicate n nbspC).flatten ++ x) from rfl]
    rw [show nbspRestore ('&' :: 'n' :: 'b' :: 's' :: 'p' :: ';'
          :: ((List.replicate n nbspC).flatten ++ x))
        = ' ' :: nbspRestore ((List.replicate n nbspC).flatten ++ x)
        from by rw [nbspRestore]]
    rw [ih, List.replicate_succ]
    rfl

theorem drop_length_takeWhile (p : Char → Bool) (l : List Char) :
    l.drop (l.takeWhile p).length = l.dropWhile p := by
  induction l with
  | nil => rfl
  | cons c t ih =>
    by_cases hc : p c = true
    · simp [List.takeWhile_cons, List.dropWhile_cons, hc, ih]
    · simp only [Bool.not_eq_true] at hc
      simp [List.takeWhile_cons, List.dropWhile_cons, hc]

theorem takeWhile_spaces_replicate (l : List Char) :
    l.takeWhile (fun c => c = ' ')
      = List.replicate (l.takeWhile (fun c => c = ' ')).length ' ' := by
  apply List.eq_replicate_length.2
  intro b hb
  have := List.mem_takeWhile_imp hb
  simpa using this

/-- On a good line, restoring the substituted text yields the line back. -/
theorem nbspRestore_nbspSubst (l : List Char) (h : goodLine l) :
    nbspRestore (nbspSubst l) = l := by
  unfold goodLine at h
  simp only [nbspSubst]
  rw [drop_length_takeWhile]
  rw [nbspRestore_nbspC _ _ h]
  rw [← takeWhile_spaces_replicate]
  exact List.takeWhile_append_dropWhile _ _

/-! ## All dumped lines are good -/

theorem goodLine_of_head (c : Char) (t : List Char) (hc1 : c ≠ ' ')
    (hc2 : c ≠ '&') : goodLine (c :: t) := by
  unfold goodLine
  rw [List.dropWhile_cons, if_neg (by simpa using hc1)]
  simpa using hc2

theorem goodLine_indent (k : Nat) (r : List Char) (h : goodLine r) :
    goodLine (indentC k ++ r) := by
  unfold goodLine at h ⊢
  rw [dropWhile_append_all _ _ (by
    intro c hc
    rw [indentC] at hc
    rw [List.eq_of_mem_replicate hc]
    simp)]
  exact h

theorem goodLine_append_comma (l : List Char) (h : goodLine l) :
    goodLine (l ++ [',']) := by
  induction l with
  | nil => exact goodLine_of_head ',' [] (by decide) (by decide)
  | cons c t ih =>
    by_cases hc : c = ' '
    · subst hc
      unfold goodLine at h ⊢
      rw [List.dropWhile_cons] at h
      rw [List.cons_append, List.dropWhile_cons]
      simp only [decide_True, if_true] at h ⊢
      exact ih h
    · unfold goodLine at h
      rw [List.dropWhile_cons, if_neg (by simpa using hc)] at h
      rw [List.cons_append]
      exact goodLine_of_head c (t ++ [',']) hc (by simpa using h)

theorem suffixLast_mem (suf : List Char) (ls : List (List Char)) :
    ∀ l ∈ suffixLast suf ls, l ∈ ls ∨ ∃ l', l' ∈ ls ∧ l = l' ++ suf := by
  induction ls with
  | nil => intro l hl; simp [suffixLast] at hl
  | cons x xs ih =>
    cases xs with
    | nil =>
      intro l hl
      simp only [suffixLast, List.mem_singleton] at hl
      exact Or.inr ⟨x, by simp, hl⟩
    | cons y ys =>
      intro l hl
      rw [show suffixLast suf (x :: y :: ys) = x :: suffixLast suf (y :: ys)
        from rfl] at hl
      rcases List.mem_cons.1 hl with h | h
      · exact Or.inl (by simp [h])
      · rcases ih l h with h' | ⟨l', hl', he⟩
        · exact Or.inl (by simp [h'])
        · exact Or.inr ⟨l', by simp [hl'], he⟩

theorem goodLine_close (k : Nat) (c : Char) (hc1 : c ≠ ' ') (hc2 : c ≠ '&') :
    goodLine (indentC k ++ [c]) :=
  goodLine_indent k [c] (goodLine_of_head c [] hc1 hc2)

theorem sizeOf_jarr_pos (a : JArr) : 1 ≤ sizeOf a := by
  cases a <;> simp <;> omega

theorem sizeOf_jobj_pos (o : JObj) : 1 ≤ sizeOf o := by
  cases o <;> simp <;> omega

/-- Every line produced by the dump has a non-ampersand first non-space
character, arrays, objects and scalars alike. -/
theorem dump_good (n : Nat) :
    (∀ ind v, sizeOf v ≤ n → ∀ l ∈ dumpLines ind v, goodLine l)
    ∧ (∀ ind v a, sizeOf v + sizeOf a ≤ n →
        ∀ l ∈ dumpArr ind v a, goodLine l)
    ∧ (∀ ind k v o, sizeOf v + sizeOf o ≤ n →
        ∀ l ∈ dumpObj ind k v o, goodLine l) := by
  induction n with
  | zero =>
    refine ⟨?_, ?_, ?_⟩
    · intro ind v hb
      exact absurd hb (by cases v <;> simp)
    · intro ind v a hb
      exact absurd hb (by cases v <;> simp <;> omega)
    · intro ind k v o hb
      exact absurd hb (by cases v <;> simp <;> omega)
  | succ n ih =>
    obtain ⟨ihV, ihA, ihO⟩ := ih
    refine ⟨?_, ?_, ?_⟩
    · intro ind v hb l hl
      cases v with
      | jnull =>
        rw [show dumpLines ind .jnull = [['n', 'u', 'l', 'l']] from by
          rw [dumpLines]] at hl
        simp only [List.mem_singleton] at hl
        exact hl ▸ goodLine_of_head 'n' _ (by decide) (by decide)
      | jbool b =>
        cases b with
        | true =>
          rw [show dumpLines ind (.jbool true) = [['t', 'r', 'u', 'e']]
            from by rw [dumpLines]] at hl
          simp only [List.mem_singleton] at hl
          exact hl ▸ goodLine_of_head 't' _ (by decide) (by decide)
        | false =>
          rw [show dumpLines ind (.jbool false) = [['f', 'a', 'l', 's', 'e']]
            from by rw [dumpLines]] at hl
          simp only [List.mem_singleton] at hl
          exact hl ▸ goodLine_of_head 'f' _ (by decide) (by decide)
      | jnum i =>
        rw [show dumpLines ind (.jnum i) = [intChars i] from by
          rw [dumpLines]] at hl
        simp only [List.mem_singleton] at hl
        subst hl
        by_cases hi : i < 0
        · rw [intChars, if_pos hi]
          exact goodLine_of_head '-' _ (by decide) (by decide)
        · rw [intChars, if_neg hi]
          obtain ⟨c, t0, hct, hd⟩ := natChars_head i.natAbs
          rw [hct]
          obtain ⟨hws, _, _, hamp⟩ := head_tok_props c
            (Or.inr (Or.inr (Or.inr (Or.inr (Or.inr (Or.inr (Or.inr hd)))))))
          refine goodLine_of_head c _ ?_ hamp
          intro he
          subst he
          exact absurd hd (by decide)
      | jstr s =>
        rw [show dumpLines ind (.jstr s) = [quoteStr s] from by
          rw [dumpLines]] at hl
        simp only [List.mem_singleton] at hl
        subst hl
        rw [show quoteStr s = '"' :: (escStr s ++ ['"']) from by
          simp [quoteStr]]
        exact goodLine_of_head '"' _ (by decide) (by decide)
      | jarr a =>
        cases a with
        | anil =>
          rw [show dumpLines ind (.jarr .anil) = [['[', ']']] from by
            rw [dumpLines]] at hl
          simp only [List.mem_singleton] at hl
          exact hl ▸ goodLine_of_head '[' _ (by decide) (by decide)
        | acons v a =>
          rw [show dumpLines ind (.jarr (.acons v a))
            = ['['] :: (dumpArr (ind + 2) v a ++ [indentC ind ++ [']']])
            from by rw [dumpLines]; rfl] at hl
          rcases List.mem_cons.1 hl with h | h
          · exact h ▸ goodLine_of_head '[' _ (by decide) (by decide)
          rcases List.mem_append.1 h with h | h
          · refine ihA (ind + 2) v a ?_ l h
            simp at hb
            omega
          · simp only [List.mem_singleton] at h
            exact h ▸ goodLine_close ind ']' (by decide) (by decide)
      | jobj o =>
        cases o with
        | onil =>
          rw [show dumpLines ind (.jobj .onil) = [['{', '}']] from by
            rw [dumpLines]] at hl
          simp only [List.mem_singleton] at hl
          exact hl ▸ goodLine_of_head '{' _ (by decide) (by decide)
        | ocons k v o =>
          rw [show dumpLines ind (.jobj (.ocons k v o))
            = ['{'] :: (dumpObj (ind + 2) k v o ++ [indentC ind ++ ['}']])
            from by rw [dumpLines]; rfl] at hl
          rcases List.mem_cons.1 hl with h | h
          · exact h ▸ goodLine_of_head '{' _ (by decide) (by decide)
          rcases List.mem_append.1 h with h | h
          · refine ihO (ind + 2) k v o ?_ l h
            simp at hb
            omega
          · simp only [List.mem_singleton] at h
            exact h ▸ goodLine_close ind '}' (by decide) (by decide)
    · intro ind v a hb l hl
      have hgood : ∀ l2 ∈ prefixHead (indentC ind) (dumpLines ind v),
          goodLine l2 := by
        intro l2 hl2
        cases hdl : dumpLines ind v with
        | nil => exact absurd hdl (dumpLines_ne_nil ind v)
        | cons l0 ls0 =>
          rw [hdl, show prefixHead (indentC ind) (l0 :: ls0)
            = (indentC ind ++ l0) :: ls0 from rfl] at hl2
          rcases List.mem_cons.1 hl2 with h | h
          · subst h
            refine goodLine_indent ind l0 ?_
            refine ihV ind v (by have := sizeOf_jarr_pos a; omega) l0 ?_
            rw [hdl]; simp
          · refine ihV ind v (by have := sizeOf_jarr_pos a; omega) l2 ?_
            rw [hdl]; simp [h]
      cases a with
      | anil =>
        rw [show dumpArr ind v .anil
          = prefixHead (indentC ind) (dumpLines ind v) from by
          rw [dumpArr]] at hl
        exact hgood l hl
      | acons w a2 =>
        rw [show dumpArr ind v (.acons w a2)
          = suffixLast [','] (prefixHead (indentC ind) (dumpLines ind v))
            ++ dumpArr ind w a2 from by rw [dumpArr]] at hl
        rcases List.mem_append.1 hl with h | h
        · rcases suffixLast_mem [','] _ l h with h' | ⟨l', hl', he⟩
          · exact hgood l h'
          · exact he ▸ goodLine_append_comma l' (hgood l' hl')
        · refine ihA ind w a2 ?_ l h
          simp at hb
          omega
    · intro ind k v o hb l hl
      have hgood : ∀ l2 ∈ prefixHead (indentC ind ++ quoteStr k ++ [':', ' '])
          (dumpLines ind v), goodLine l2 := by
        intro l2 hl2
        cases hdl : dumpLines ind v with
        | nil => exact absurd hdl (dumpLines_ne_nil ind v)
        | cons l0 ls0 =>
          rw [hdl, show prefixHead (indentC ind ++ quoteStr k ++ [':', ' '])
              (l0 :: ls0)
            = ((indentC ind ++ quoteStr k ++ [':', ' ']) ++ l0) :: ls0
            from rfl] at hl2
          rcases List.mem_cons.1 hl2 with h | h
          · subst h
            have hsh : (indentC ind ++ quoteStr k ++ [':', ' ']) ++ l0
                = indentC ind ++ ('"' :: (escStr k
                  ++ '"' :: (':' :: ' ' :: l0))) := by
              simp [quoteStr, List.append_assoc]
            rw [hsh]
            exact goodLine_indent ind _
              (goodLine_of_head '"' _ (by decide) (by decide))
          · refine ihV ind v (by have := sizeOf_jobj_pos o; omega) l2 ?_
            rw [hdl]; simp [h]
      cases o with
      | onil =>
        rw [show dumpObj ind k v .onil
          = prefixHead (indentC ind ++ quoteStr k ++ [':', ' '])
            (dumpLines ind v) from by rw [dumpObj]] at hl
        exact hgood l hl
      | ocons k2 v2 o2 =>
        rw [show dumpObj ind k v (.ocons k2 v2 o2)
          = suffixLast [','] (prefixHead
              (indentC ind ++ quoteStr k ++ [':', ' ']) (dumpLines ind v))
            ++ dumpObj ind k2 v2 o2 from by rw [dumpObj]] at hl
        rcases List.mem_append.1 hl with h | h
        · rcases suffixLast_mem [','] _ l h with h' | ⟨l', hl', he⟩
          · exact hgood l h'
          · exact he ▸ goodLine_append_comma l' (hgood l' hl')
        · refine ihO ind k2 v2 o2 ?_ l h
          simp at hb
          omega

/-- C7: parsing back the textual content rendered by `json_to_pdf` (the
2-space-indented re-serialization, one paragraph per line, with the
non-breaking-space substitution undone) reproduces the original structured
value — in particular its key order and nesting depth. -/
theorem render_json_roundtrip (v : JValue) :
    ∃ w, pVal (jfuelV v) (renderedTextOf v) = some (w, [])
      ∧ jKeys w = jKeys v ∧ jDepth w = jDepth v := by
  have hmap : (jsonParagraphs v).map nbspRestore = dumpLines 0 v := by
    unfold jsonParagraphs
    rw [List.map_map]
    have hall : ∀ l ∈ dumpLines 0 v, (nbspRestore ∘ nbspSubst) l = l :=
      fun l hl =>
        nbspRestore_nbspSubst l ((dump_good (sizeOf v)).1 0 v le_rfl l hl)
    calc (dumpLines 0 v).map (nbspRestore ∘ nbspSubst)
        = (dumpLines 0 v).map id := List.map_congr_left hall
      _ = dumpLines 0 v := List.map_id _
  have hparse : pVal (jfuelV v) (flatNl (dumpLines 0 v) ++ [])
      = some (v, []) :=
    (parse_dump (jfuelV v)).1 v 0 [] trivial le_rfl
  refine ⟨v, ?_, rfl, rfl⟩
  unfold renderedTextOf
  rw [hmap]
  simpa using hparse

/-! ## Claims on the orchestrated driver -/

/-- C1: a job name that appears on no page of the pipeline's listing makes
`get_job_id` raise NotFound (the `ValueError`) after exhausting all pages,
and `download_artifact` is never invoked for that job — `process_job`
records no download and reports failure. -/
theorem job_absent_no_download (env : ServerEnv)
    (project_id pipeline_id : Nat) (output_dir : List String)
    (job_name : String)
    (h : ∀ pg ∈ env.listing project_id pipeline_id, ∀ j ∈ pg,
      j.name ≠ job_name) :
    (get_job_id (env.listing project_id pipeline_id) job_name).1 = .notFound
    ∧ (process_job env project_id pipeline_id output_dir
        job_name).downloads = []
    ∧ (process_job env project_id pipeline_id output_dir job_name).ok
        = false := by
  have h1 := get_job_id_absent_notFound _ job_name h
  refine ⟨h1, ?_, ?_⟩ <;> simp [process_job, h1]

/-- Witness for C1 on a concrete one-page listing without the job. -/
theorem job_absent_no_download_witness :
    (get_job_id ((⟨fun _ _ => [[⟨"build", 5⟩]], fun _ _ => none⟩ :
        ServerEnv).listing 1 2) "deploy").1 = .notFound
    ∧ (process_job ⟨fun _ _ => [[⟨"build", 5⟩]], fun _ _ => none⟩ 1 2
        ["artifacts"] "deploy").downloads = []
    ∧ (process_job ⟨fun _ _ => [[⟨"build", 5⟩]], fun _ _ => none⟩ 1 2
        ["artifacts"] "deploy").ok = false :=
  job_absent_no_download ⟨fun _ _ => [[⟨"build", 5⟩]], fun _ _ => none⟩ 1 2
    ["artifacts"] "deploy" (by decide)

/-- C4: on a malformed XML file — `ET.parse` raises `ParseError` —
`xml_to_pdf` logs the parse error and returns normally: the function
yields a value (no exception reaches the caller) and produces no output
document, not even a partial one. -/
theorem xml_to_pdf_malformed (name : String) :
    xml_to_pdf name (.error .parseErr) = (none, [.xmlParseLog]) := rfl

/-- Witness for C6: two rendered documents in different job directories
collide on the flattened name; the archive holds both entries and
extraction yields the later one. -/
theorem zip_pdfs_bundle_witness :
    zip_pdfs ["artifacts", "p"] ""
      [⟨["artifacts", "p", "job_1", "x.pdf"], .pdfC ⟨['a'], []⟩⟩,
        ⟨["artifacts", "p", "job_2", "x.pdf"], .pdfC ⟨['b'], []⟩⟩]
      = ([⟨["artifacts", "p", "job_1", "x.pdf"], .pdfC ⟨['a'], []⟩⟩,
          ⟨["artifacts", "p", "job_2", "x.pdf"], .pdfC ⟨['b'], []⟩⟩,
          ⟨["artifacts", "p", "reports.zip"],
            .zipC [("x.pdf", .pdfC ⟨['a'], []⟩),
              ("x.pdf", .pdfC ⟨['b'], []⟩)]⟩],
        [.zippedAll])
    ∧ zipExtract [("x.pdf", .pdfC ⟨['a'], []⟩), ("x.pdf", .pdfC ⟨['b'], []⟩)]
        "x.pdf" = some (.pdfC ⟨['b'], []⟩) := by
  have h : walkPdfs ["artifacts", "p"]
      [⟨["artifacts", "p", "job_1", "x.pdf"], .pdfC ⟨['a'], []⟩⟩,
        ⟨["artifacts", "p", "job_2", "x.pdf"], .pdfC ⟨['b'], []⟩⟩] ≠ [] := by
    rw [show walkPdfs ["artifacts", "p"]
        [⟨["artifacts", "p", "job_1", "x.pdf"], .pdfC ⟨['a'], []⟩⟩,
          ⟨["artifacts", "p", "job_2", "x.pdf"], .pdfC ⟨['b'], []⟩⟩]
      = [⟨["artifacts", "p", "job_1", "x.pdf"], .pdfC ⟨['a'], []⟩⟩,
          ⟨["artifacts", "p", "job_2", "x.pdf"], .pdfC ⟨['b'], []⟩⟩ ]
      from rfl]
    simp
  have T := zip_pdfs_bundle ["artifacts", "p"] "" _ h
  exact ⟨T.1.trans (by rfl), (T.2 "x.pdf").trans (by rfl)⟩

/-- Every file the render loop writes is a rendered document placed
directly in the extraction directory (depth one, never inside a
subdirectory). -/
theorem renderLoop_writes_top (extract_dir : List String)
    (entries : List ArtifactEntry) :
    ∀ names, ∀ f ∈ (renderLoop extract_dir entries names).2,
      ∃ nm d, f.path = extract_dir ++ [stripExt nm ++ ".pdf"]
        ∧ f.content = .pdfC d := by
  intro names
  induction names with
  | nil =>
    intro f hf
    simp [renderLoop] at hf
  | cons nm rest ih =>
    intro f hf
    simp only [renderLoop] at hf
    by_cases hj : strEndsWith nm ".json" = true
    · rw [if_pos hj] at hf
      cases hm : json_to_pdf nm (match fileData entries nm with
        | none => .error ()
        | some d => d.jsonP) with
      | ok doc =>
        rw [hm] at hf
        simp only at hf
        rcases List.mem_cons.1 hf with h | h
        · exact ⟨nm, doc, by rw [h], by rw [h]⟩
        · exact ih f h
      | error e =>
        rw [hm] at hf
        simp at hf
    · rw [if_neg hj] at hf
      by_cases hx : strEndsWith nm ".xml" = true
      · rw [if_pos hx] at hf
        cases hm : xml_to_pdf nm (match fileData entries nm with
          | none => .error .otherErr
          | some d => d.xmlP) with
        | mk o logs =>
          rw [hm] at hf
          cases o with
          | some doc =>
            simp only at hf
            rcases List.mem_cons.1 hf with h | h
            · exact ⟨nm, doc, by rw [h], by rw [h]⟩
            · exact ih f h
          | none => exact ih f hf
      · rw [if_neg hx] at hf
        exact ih f hf

/-- The render loop succeeds exactly when every top-level `.json` name is
an actual file whose content parses; `.xml` entries — including
directories named `*.xml`, whose `IsADirectoryError` dies inside
`xml_to_pdf`'s blanket handler — never fail the job. -/
theorem renderLoop_ok_iff (extract_dir : List String)
    (entries : List ArtifactEntry) :
    ∀ names, (renderLoop extract_dir entries names).1 = true ↔
      ∀ nm ∈ names, strEndsWith nm ".json" = true →
        ∃ d v, fileData entries nm = some d ∧ d.jsonP = Except.ok v := by
  intro names
  induction names with
  | nil => simp [renderLoop]
  | cons nm rest ih =>
    simp only [renderLoop]
    by_cases hj : strEndsWith nm ".json" = true
    · rw [if_pos hj]
      cases hfd : fileData entries nm with
      | none =>
        simp only [hfd, json_to_pdf]
        constructor
        · intro h; simp at h
        · intro h
          obtain ⟨d, v, hd, _⟩ := h nm (by simp) hj
          rw [hfd] at hd
          exact absurd hd (by simp)
      | some d =>
        cases hdp : d.jsonP with
        | ok v =>
          simp only [hfd, hdp, json_to_pdf]
          constructor
          · intro h nm2 hnm2 hj2
            rcases List.mem_cons.1 hnm2 with he | he
            · subst he
              exact ⟨d, v, hfd, hdp⟩
            · exact (ih.1 (by simpa using h)) nm2 he hj2
          · intro h
            exact ih.2 (fun nm2 h2 hj2 => h nm2 (by simp [h2]) hj2)
        | error e =>
          simp only [hfd, hdp, json_to_pdf]
          constructor
          · intro h; simp at h
          · intro h
            obtain ⟨d2, v2, hd2, hp2⟩ := h nm (by simp) hj
            rw [hfd] at hd2
            have : d2 = d := by
              injection hd2 with he
              exact he.symm
            rw [this, hdp] at hp2
            exact absurd hp2 (by simp)
    · rw [if_neg hj]
      by_cases hx : strEndsWith nm ".xml" = true
      · rw [if_pos hx]
        cases hm : xml_to_pdf nm (match fileData entries nm with
          | none => .error .otherErr
          | some d => d.xmlP) with
        | mk o logs =>
          cases o with
          | some doc =>
            simp only
            constructor
            · intro h nm2 hnm2 hj2
              rcases List.mem_cons.1 hnm2 with he | he
              · subst he; exact absurd hj2 (by simp [hj])
              · exact (ih.1 (by simpa using h)) nm2 he hj2
            · intro h
              exact ih.2 (fun nm2 h2 hj2 => h nm2 (by simp [h2]) hj2)
          | none =>
            constructor
            · intro h nm2 hnm2 hj2
              rcases List.mem_cons.1 hnm2 with he | he
              · subst he; exact absurd hj2 (by simp [hj])
              · exact (ih.1 h) nm2 he hj2
            · intro h
              exact ih.2 (fun nm2 h2 hj2 => h nm2 (by simp [h2]) hj2)
      · rw [if_neg hx]
        constructor
        · intro h nm2 hnm2 hj2
          rcases List.mem_cons.1 hnm2 with he | he
          · subst he; exact absurd hj2 (by simp [hj])
          · exact (ih.1 h) nm2 he hj2
        · intro h
          exact ih.2 (fun nm2 h2 hj2 => h nm2 (by simp [h2]) hj2)

/-- C10 (amended): the per-job rendering examines only the top-level
entries — every rendered document lands directly in the extraction
directory, so structured files inside subdirectories are never rendered —
and the job is marked failed exactly when some top-level `.json` name is
not a parseable file (a directory named `*.json` fails the job, while a
directory named `*.xml` is swallowed by `xml_to_pdf`'s handler and does
not). -/
theorem render_top_level_only (extract_dir : List String)
    (entries : List ArtifactEntry) (names : List String) :
    (∀ f ∈ (renderLoop extract_dir entries names).2,
      ∃ nm d, f.path = extract_dir ++ [stripExt nm ++ ".pdf"]
        ∧ f.content = .pdfC d)
    ∧ ((renderLoop extract_dir entries names).1 = true ↔
        ∀ nm ∈ names, strEndsWith nm ".json" = true →
          ∃ d v, fileData entries nm = some d ∧ d.jsonP = Except.ok v) :=
  ⟨renderLoop_writes_top extract_dir entries names,
    renderLoop_ok_iff extract_dir entries names⟩

/-- Witness for C10 on a one-file archive: the rendered document sits at
depth one and the loop succeeds. -/
theorem render_top_level_only_witness :
    (∃ nm d, (⟨["out", "job_7", "r.pdf"],
        .pdfC ⟨"r.json".toList, jsonParagraphs .jnull⟩⟩ : FSFile).path
        = ["out", "job_7"] ++ [stripExt nm ++ ".pdf"]
      ∧ (⟨["out", "job_7", "r.pdf"],
        .pdfC ⟨"r.json".toList, jsonParagraphs .jnull⟩⟩ : FSFile).content
        = .pdfC d)
    ∧ (renderLoop ["out", "job_7"]
        [⟨["r.json"], ⟨.ok .jnull, .error .parseErr⟩⟩] ["r.json"]).1
        = true := by
  have T := render_top_level_only ["out", "job_7"]
    [⟨["r.json"], ⟨.ok .jnull, .error .parseErr⟩⟩] ["r.json"]
  constructor
  · apply T.1
    rw [show (renderLoop ["out", "job_7"]
        [⟨["r.json"], ⟨.ok .jnull, .error .parseErr⟩⟩] ["r.json"]).2
      = [⟨["out", "job_7", "r.pdf"],
          .pdfC ⟨"r.json".toList, jsonParagraphs .jnull⟩⟩] from rfl]
    exact List.mem_cons_self _ _
  · apply T.2.2
    intro nm hnm hj
    have : nm = "r.json" := by simpa using hnm
    subst this
    exact ⟨⟨.ok .jnull, .error .parseErr⟩, .jnull, rfl, rfl⟩

/-- Counterexample to C10 as stated: a top-level directory whose name ends
in `.xml` does not fail the job — `ET.parse`'s `IsADirectoryError` is
caught by `xml_to_pdf`'s own blanket `except`, the entry is only logged,
and `process_job` still returns True. -/
theorem xml_dir_job_not_failed :
    (process_job
      ⟨fun _ _ => [[⟨"job1", 7⟩]],
        fun _ _ => some [⟨["a.xml", "inner.txt"],
          ⟨.error (), .error .parseErr⟩⟩]⟩
      1 2 ["out"] "job1").ok = true
    ∧ fileData [⟨["a.xml", "inner.txt"], ⟨.error (), .error .parseErr⟩⟩]
        "a.xml" = none
    ∧ strEndsWith "a.xml" ".xml" = true := by
  refine ⟨?_, rfl, rfl⟩
  rfl

/-! ## Paths written by a job, and the wiped directory -/

theorem isUnder_append_cons (d : List String) (x : String)
    (rest : List String) : isUnder d (d ++ x :: rest) = true := by
  simp only [isUnder, Bool.and_eq_true, decide_eq_true_eq,
    List.isPrefixOf_iff_prefix]
  constructor
  · simp
  · exact List.prefix_append d (x :: rest)

/-- Every file `process_job` writes lies strictly under the output
directory. -/
theorem process_job_writes_under (env : ServerEnv)
    (project_id pipeline_id : Nat) (output_dir : List String)
    (job_name : String) :
    ∀ f ∈ (process_job env project_id pipeline_id output_dir
      job_name).writes, isUnder output_dir f.path = true := by
  intro f hf
  unfold process_job at hf
  split at hf
  · simp at hf
  · simp at hf
  · split at hf
    · simp at hf
    · rename_i jid entries heq2
      simp only [unzip_to_dir] at hf
      rcases List.mem_append.1 hf with h | h
      · obtain ⟨e, _, he⟩ := List.mem_map.1 h
        rw [← he]
        simp only [List.append_assoc]
        exact isUnder_append_cons output_dir _ _
      · obtain ⟨nm, d, hp, _⟩ := renderLoop_writes_top _ entries _ f h
        rw [hp, List.append_assoc]
        exact isUnder_append_cons output_dir _ _

theorem underDir_clean (d : List String) (fs : FS) :
    underDir d (clean_output_dir d fs) = [] := by
  unfold underDir clean_output_dir
  rw [List.filter_filter]
  apply List.filter_eq_nil_iff.2
  intro f hf
  cases h : isUnder d f.path <;> simp [h]

theorem walkPdfs_clean (d : List String) (fs : FS) :
    walkPdfs d (clean_output_dir d fs) = [] := by
  unfold walkPdfs clean_output_dir
  rw [List.filter_filter]
  apply List.filter_eq_nil_iff.2
  intro f hf
  cases h : isUnder d f.path <;> simp [h]

/-- What a config run leaves inside its output directory does not depend
on the prior filesystem: the directory is wiped first, and everything
that lands there afterwards comes from the server alone. -/
theorem runConfig_underDir (env : ServerEnv) (base : List String)
    (cfg : PipelineConfig) (fs : FS) :
    underDir (configOutputDir base cfg) (runConfig env base fs cfg).1
      = underDir (configOutputDir base cfg)
          (((cfg.job_names.map (process_job env cfg.project_id
            cfg.pipeline_id (configOutputDir base cfg))).map
              (fun r => r.writes)).flatten)
        ++ (if (walkPdfs (configOutputDir base cfg)
            (((cfg.job_names.map (process_job env cfg.project_id
              cfg.pipeline_id (configOutputDir base cfg))).map
                (fun r => r.writes)).flatten)).isEmpty then []
          else [⟨configOutputDir base cfg ++ [cfg.pfx ++ "reports.zip"],
            .zipC ((walkPdfs (configOutputDir base cfg)
              (((cfg.job_names.map (process_job env cfg.project_id
                cfg.pipeline_id (configOutputDir base cfg))).map
                  (fun r => r.writes)).flatten)).map
              (fun f => (cfg.pfx ++ baseName f.path, f.content)))⟩]) := by
  simp only [runConfig]
  have hwalk : walkPdfs (configOutputDir base cfg)
      (clean_output_dir (configOutputDir base cfg) fs
        ++ (((cfg.job_names.map (process_job env cfg.project_id
          cfg.pipeline_id (configOutputDir base cfg))).map
            (fun r => r.writes)).flatten))
      = walkPdfs (configOutputDir base cfg)
        (((cfg.job_names.map (process_job env cfg.project_id
          cfg.pipeline_id (configOutputDir base cfg))).map
            (fun r => r.writes)).flatten) := by
    unfold walkPdfs
    rw [List.filter_append]
    rw [show List.filter (fun f => isUnder (configOutputDir base cfg) f.path
        && isPdfName (baseName f.path))
        (clean_output_dir (configOutputDir base cfg) fs)
      = walkPdfs (configOutputDir base cfg)
        (clean_output_dir (configOutputDir base cfg) fs) from rfl]
    rw [walkPdfs_clean, List.nil_append]
  cases hempty : (walkPdfs (configOutputDir base cfg)
      (((cfg.job_names.map (process_job env cfg.project_id
        cfg.pipeline_id (configOutputDir base cfg))).map
          (fun r => r.writes)).flatten)).isEmpty with
  | true =>
    simp only [zip_pdfs, hwalk, hempty, if_true]
    unfold underDir
    rw [List.filter_append]
    rw [show List.filter (fun f => isUnder (configOutputDir base cfg) f.path)
        (clean_output_dir (configOutputDir base cfg) fs)
      = underDir (configOutputDir base cfg)
        (clean_output_dir (configOutputDir base cfg) fs) from rfl]
    rw [underDir_clean, List.nil_append, List.append_nil]
  | false =>
    simp only [zip_pdfs, hwalk, hempty, Bool.false_eq_true, if_false]
    unfold underDir
    rw [List.filter_append, List.filter_append]
    rw [show List.filter (fun f => isUnder (configOutputDir base cfg) f.path)
        (clean_output_dir (configOutputDir base cfg) fs)
      = underDir (configOutputDir base cfg)
        (clean_output_dir (configOutputDir base cfg) fs) from rfl]
    rw [underDir_clean, List.nil_append]
    congr 1
    rw [List.filter_cons, List.filter_nil]
    rw [if_pos]
    simp only [isUnder_append_cons]

/-- C8: running the driver twice in a row on the same configuration and
output directory yields identical final contents of the output directory —
the per-configuration directory is fully wiped before its jobs run, so no
leftover of the first run survives into the second. -/
theorem driver_idempotent_output (env : ServerEnv) (base : List String)
    (cfg : PipelineConfig) (fs : FS) :
    underDir (configOutputDir base cfg)
      ((runConfig env base ((runConfig env base fs cfg).1) cfg).1)
    = underDir (configOutputDir base cfg) ((runConfig env base fs cfg).1) := by
  rw [runConfig_underDir, runConfig_underDir]

/-- C3 (amended): every per-job exception is absorbed inside `process_job`
(it always returns a boolean, never propagating to sibling jobs), the
driver exits with status 0, and the bundle contains every PDF a succeeding
job wrote — though a failing job's documents rendered before its failure
are bundled too, as the counterexample below shows. -/
theorem driver_exit_zero_bundles_successes (env : ServerEnv)
    (base : List String) (cfgs : List PipelineConfig) (fs : FS)
    (cfg : PipelineConfig) :
    (main_model env base cfgs fs).2 = 0
    ∧ ∀ r ∈ (runConfig env base fs cfg).2, r.ok = true →
        ∀ f ∈ r.writes, isPdfName (baseName f.path) = true →
          ∃ es, zipEntriesAt (runConfig env base fs cfg).1
              (configOutputDir base cfg ++ [cfg.pfx ++ "reports.zip"])
              = some es
            ∧ (cfg.pfx ++ baseName f.path, f.content) ∈ es := by
  constructor
  · rfl
  · intro r hr hok f hf hpdf
    have hr' : r ∈ cfg.job_names.map (process_job env cfg.project_id
        cfg.pipeline_id (configOutputDir base cfg)) := hr
    obtain ⟨nm, _, hnm⟩ := List.mem_map.1 hr'
    have hunder : isUnder (configOutputDir base cfg) f.path = true := by
      rw [← hnm] at hf
      exact process_job_writes_under env _ _ _ nm f hf
    have hfs2 : f ∈ clean_output_dir (configOutputDir base cfg) fs
        ++ (((cfg.job_names.map (process_job env cfg.project_id
          cfg.pipeline_id (configOutputDir base cfg))).map
            (fun r => r.writes)).flatten) :=
      List.mem_append.2 (Or.inr (List.mem_flatten.2
        ⟨r.writes, List.mem_map.2 ⟨r, hr', rfl⟩, hf⟩))
    have hwalk : f ∈ walkPdfs (configOutputDir base cfg)
        (clean_output_dir (configOutputDir base cfg) fs
          ++ (((cfg.job_names.map (process_job env cfg.project_id
            cfg.pipeline_id (configOutputDir base cfg))).map
              (fun r => r.writes)).flatten)) := by
      apply List.mem_filter.2
      refine ⟨hfs2, ?_⟩
      rw [hunder, hpdf]
      rfl
    have hne : (walkPdfs (configOutputDir base cfg)
        (clean_output_dir (configOutputDir base cfg) fs
          ++ (((cfg.job_names.map (process_job env cfg.project_id
            cfg.pipeline_id (configOutputDir base cfg))).map
              (fun r => r.writes)).flatten))).isEmpty = false := by
      cases hw : (walkPdfs (configOutputDir base cfg)
          (clean_output_dir (configOutputDir base cfg) fs
            ++ (((cfg.job_names.map (process_job env cfg.project_id
              cfg.pipeline_id (configOutputDir base cfg))).map
                (fun r => r.writes)).flatten))).isEmpty with
      | false => rfl
      | true =>
        exfalso
        rw [List.isEmpty_iff] at hw
        rw [hw] at hwalk
        simp at hwalk
    refine ⟨(walkPdfs (configOutputDir base cfg)
        (clean_output_dir (configOutputDir base cfg) fs
          ++ (((cfg.job_names.map (process_job env cfg.project_id
            cfg.pipeline_id (configOutputDir base cfg))).map
              (fun r => r.writes)).flatten))).map
        (fun f => (cfg.pfx ++ baseName f.path, f.content)), ?_, ?_⟩
    · have hres : (runConfig env base fs cfg).1
          = (clean_output_dir (configOutputDir base cfg) fs
            ++ (((cfg.job_names.map (process_job env cfg.project_id
              cfg.pipeline_id (configOutputDir base cfg))).map
                (fun r => r.writes)).flatten))
          ++ [⟨configOutputDir base cfg ++ [cfg.pfx ++ "reports.zip"],
            .zipC ((walkPdfs (configOutputDir base cfg)
              (clean_output_dir (configOutputDir base cfg) fs
                ++ (((cfg.job_names.map (process_job env cfg.project_id
                  cfg.pipeline_id (configOutputDir base cfg))).map
                    (fun r => r.writes)).flatten))).map
              (fun f => (cfg.pfx ++ baseName f.path, f.content)))⟩] := by
        simp only [runConfig, zip_pdfs, hne, Bool.false_eq_true, if_false]
      rw [hres]
      unfold zipEntriesAt
      rw [List.reverse_append]
      simp only [List.reverse_cons, List.reverse_nil, List.nil_append,
        List.singleton_append]
      rw [List.find?_cons_of_pos _ (by simp)]
      rfl
    · exact List.mem_map.2 ⟨f, hwalk, rfl⟩

/-- Witness for C3 (amended) on `envSolo`: exit code 0 and the succeeding
job's document lands in the bundle. -/
theorem driver_exit_zero_bundles_successes_witness :
    (main_model envSolo ["artifacts"] [cfgSolo] []).2 = 0
    ∧ ∃ es, zipEntriesAt (runConfig envSolo ["artifacts"] [] cfgSolo).1
        (configOutputDir ["artifacts"] cfgSolo ++ ["" ++ "reports.zip"])
        = some es
      ∧ ("" ++ "a.pdf",
          Content.pdfC ⟨"a.json".toList, jsonParagraphs .jnull⟩) ∈ es := by
  have T := driver_exit_zero_bundles_successes envSolo ["artifacts"]
    [cfgSolo] [] cfgSolo
  refine ⟨T.1, ?_⟩
  have happ := T.2
    (process_job envSolo 1 2 (configOutputDir ["artifacts"] cfgSolo) "good")
    (by
      rw [show (runConfig envSolo ["artifacts"] [] cfgSolo).2
        = [process_job envSolo 1 2 (configOutputDir ["artifacts"] cfgSolo)
            "good"] from rfl]
      exact List.mem_cons_self _ _)
    rfl
    ⟨(configOutputDir ["artifacts"] cfgSolo ++ ["job_1"]) ++ ["a.pdf"],
      Content.pdfC ⟨"a.json".toList, jsonParagraphs .jnull⟩⟩
    (by
      rw [show (process_job envSolo 1 2 (configOutputDir ["artifacts"]
          cfgSolo) "good").writes
        = [⟨(configOutputDir ["artifacts"] cfgSolo ++ ["job_1"])
              ++ ["a.json"],
            Content.srcC ⟨.ok .jnull, .error .parseErr⟩⟩,
          ⟨(configOutputDir ["artifacts"] cfgSolo ++ ["job_1"])
              ++ ["a.pdf"],
            Content.pdfC ⟨"a.json".toList, jsonParagraphs .jnull⟩⟩]
        from rfl]
      exact List.mem_cons_of_mem _ (List.mem_cons_self _ _))
    rfl
  exact happ

/-- Counterexample to C3 as stated: with one succeeding and one failing
job, the bundle holds a document rendered by the failing job before its
failure, so the bundle does not contain only the succeeding jobs'
documents. -/
theorem bundle_contains_failed_job_doc :
    ((runConfig envGoodBad ["artifacts"] [] cfgGoodBad).2.map
      (fun r => r.ok)) = [true, false]
    ∧ zipEntriesAt (runConfig envGoodBad ["artifacts"] [] cfgGoodBad).1
        ["artifacts", "project_1_pipeline_2", "reports.zip"]
        = some [("c.pdf", .pdfC ⟨"c.json".toList, jsonParagraphs .jnull⟩)]
    ∧ ¬ (∀ e ∈ [("c.pdf",
          Content.pdfC ⟨"c.json".toList, jsonParagraphs .jnull⟩)],
        ∃ r ∈ (runConfig envGoodBad ["artifacts"] [] cfgGoodBad).2,
          r.ok = true ∧ ∃ f ∈ r.writes,
            e = ("" ++ baseName f.path, f.content)) := by
  refine ⟨rfl, rfl, ?_⟩
  intro h
  obtain ⟨r, hr, hok, f, hfw, _⟩ := h _ (List.mem_cons_self _ _)
  rw [show (runConfig envGoodBad ["artifacts"] [] cfgGoodBad).2
    = [⟨true, [1], []⟩,
       ⟨false, [2],
        [⟨["artifacts", "project_1_pipeline_2", "job_2", "c.json"],
            Content.srcC ⟨.ok .jnull, .error .parseErr⟩⟩,
          ⟨["artifacts", "project_1_pipeline_2", "job_2", "d.json"],
            Content.srcC ⟨.error (), .error .parseErr⟩⟩,
          ⟨["artifacts", "project_1_pipeline_2", "job_2", "c.pdf"],
            Content.pdfC ⟨"c.json".toList, jsonParagraphs .jnull⟩⟩]⟩]
    from rfl] at hr
  rcases List.mem_cons.1 hr with he | he
  · rw [he] at hfw
    simp at hfw
  · have he2 : r = ⟨false, [2],
        [⟨["artifacts", "project_1_pipeline_2", "job_2", "c.json"],
            Content.srcC ⟨.ok .jnull, .error .parseErr⟩⟩,
          ⟨["artifacts", "project_1_pipeline_2", "job_2", "d.json"],
            Content.srcC ⟨.error (), .error .parseErr⟩⟩,
          ⟨["artifacts", "project_1_pipeline_2", "job_2", "c.pdf"],
            Content.pdfC ⟨"c.json".toList, jsonParagraphs .jnull⟩⟩]⟩ := by
      simpa using he
    rw [he2] at hok
    simp at hok
